import Mathlib

/-!
Verification of the neighbor-sampling / link-sampling subsystem of the
repository (sampler/neighbor_sampler.py, loader/link_loader.py, nn/repeat.py).

The Python code is shallowly embedded: tensors of node ids become `List ℕ`,
tensors of timestamps become `List ℤ`, label tensors become `List ℚ`,
fractional amounts become `ℚ`, 2-D tensors become `List (List ℕ)` in row-major
order, and fallible code returns `Except SamplerError`.  `torch.randint` draws
are modelled by an abstract stream `rand : ℕ → ℕ` reduced modulo the number of
nodes; every call consumes consecutive positions of the stream, matching the
sequential consumption of the global RNG.
-/

namespace PyG

/-- Decidable equality for `Except`, used to evaluate the embedded functions
at closed inputs. -/
instance {e a : Type} [DecidableEq e] [DecidableEq a] : DecidableEq (Except e a) :=
  fun x y =>
    match x, y with
    | Except.ok u, Except.ok v =>
      if h : u = v then isTrue (by rw [h])
      else isFalse (by intro hc; cases hc; exact h rfl)
    | Except.error u, Except.error v =>
      if h : u = v then isTrue (by rw [h])
      else isFalse (by intro hc; cases hc; exact h rfl)
    | Except.ok _, Except.error _ => isFalse (by intro hc; cases hc)
    | Except.error _, Except.ok _ => isFalse (by intro hc; cases hc)

/-- Errors raised by the embedded code (assertion failures, configuration
errors and tensor-shape errors of the original Python). -/
inductive SamplerError
  | disjointRequired
  | edgeLabelSet
  | seedTimeMissing
  | viewError
  | batchMissing
  | numNeighborsMismatch (key : String × String × String) (expected got : ℕ)
  | numNeighborsNotSequence
  | indexError
  | typeError
deriving DecidableEq, Repr

/-- Negative-sampling mode, `binary` or `triplet`. -/
inductive NegMode
  | binary
  | triplet
deriving DecidableEq, Repr

/-- Modelled from the spec: the class `NegativeSamplingConfig` (its defining
file is not part of this source tree; only its uses are).  Per the spec's data
model it holds a mode (`binary` or `triplet`) and an `amount`, the ratio of
sampled negatives to positives, which may be fractional. -/
structure NegSamplingConfig where
  mode : NegMode
  amount : ℚ
deriving DecidableEq, Repr

/-- Embeds `NegativeSamplingConfig.is_binary`. -/
def NegSamplingConfig.is_binary (c : NegSamplingConfig) : Bool :=
  match c.mode with
  | NegMode.binary => true
  | NegMode.triplet => false

/-- Embeds `NegativeSamplingConfig.is_triplet`. -/
def NegSamplingConfig.is_triplet (c : NegSamplingConfig) : Bool :=
  match c.mode with
  | NegMode.binary => false
  | NegMode.triplet => true

/-- Embeds Python `math.ceil` on a rational, as a natural number.  (Negative
results would be invalid tensor sizes and are clamped; `torch` raises on them
before they could be observed.) -/
def math_ceil (q : ℚ) : ℕ := (Int.ceil q).toNat

/-- First-occurrence index of the minimum of a list, embedding
`torch.argmin` on a 1-D tensor (CPU semantics: first minimal position). -/
def argmin : List ℤ → ℕ
  | [] => 0
  | [_] => 0
  | x :: xs =>
    let j := argmin xs
    if xs.getD j 0 < x then j + 1 else 0

/-- One cell of the temporal negative-sampling work matrix, flattened
row-major: candidate node id, the seed time of its slot, and its entry of
`mask` (`true` = temporal constraint still violated). -/
abbrev NegCell := ℕ × ℤ × Bool

/-- Embeds one masked redraw `out[mask] = tmp = torch.randint(...)` together
with `mask[mask.clone()] = node_time[tmp] >= seed_time[mask]`: masked cells
are redrawn from consecutive stream positions (starting at counter `c`) in
row-major order and their mask bit is recomputed; unmasked cells are kept.
Returns the new cells and the advanced stream counter. -/
def redraw_round (rand : ℕ → ℕ) (num_nodes : ℕ) (node_time : List ℤ) :
    List NegCell → ℕ → List NegCell × ℕ
  | [], c => ([], c)
  | cell :: rest, c =>
    if cell.2.2 then
      let v := rand c % num_nodes
      let b := decide (cell.2.1 ≤ node_time.getD v 0)
      let p := redraw_round rand num_nodes node_time rest (c + 1)
      ((v, cell.2.1, b) :: p.1, p.2)
    else
      let p := redraw_round rand num_nodes node_time rest c
      (cell :: p.1, p.2)

/-- Embeds the `for i in range(5)` retry loop of `neg_sample`: at the top of
each round, if no mask bit is set the loop breaks with
`neg_sampling_complete = True`; otherwise one masked redraw happens.  After
the fuel is exhausted the flag stays `False` (exactly as in the source, even
if the final redraw happened to clear the mask). -/
def neg_loop (rand : ℕ → ℕ) (num_nodes : ℕ) (node_time : List ℤ) :
    ℕ → List NegCell → ℕ → List NegCell × Bool
  | 0, cells, _ => (cells, false)
  | fuel + 1, cells, c =>
    if cells.any (fun cell => cell.2.2) then
      let p := redraw_round rand num_nodes node_time cells c
      neg_loop rand num_nodes node_time fuel p.1 p.2
    else
      (cells, true)

/-- Embeds `neg_sample` of `sampler/neighbor_sampler.py`.  Without a
`node_time` it draws `ceil(len(seed) * num_samples)` ids uniformly from
`[0, num_nodes)`.  With a temporal constraint it draws a
`ceil(num_samples) × len(seed)` matrix (flattened row-major, slot of flat
position `k` is `k % len(seed)`), runs up to 5 masked redraw rounds, fills
cells that are still invalid with `node_time.argmin()`, and returns the first
`ceil(len(seed) * num_samples)` flattened entries. -/
def neg_sample (rand : ℕ → ℕ) (seed : List ℕ) (num_samples : ℚ) (num_nodes : ℕ)
    (seed_time : Option (List ℤ)) (node_time : Option (List ℤ)) :
    Except SamplerError (List ℕ) :=
  let num_neg := math_ceil ((seed.length : ℚ) * num_samples)
  match node_time with
  | none => Except.ok ((List.range num_neg).map fun i => rand i % num_nodes)
  | some nt =>
    match seed_time with
    | none => Except.error SamplerError.seedTimeMissing
    | some st =>
      let s := math_ceil num_samples
      let n := seed.length
      let total := s * n
      let cells0 : List NegCell := (List.range total).map fun k =>
        let v := rand k % num_nodes
        let t := st.getD (k % n) 0
        (v, t, decide (t ≤ nt.getD v 0))
      let p := neg_loop rand num_nodes nt 5 cells0 total
      let cells2 := if p.2 then p.1 else
        p.1.map fun cell => if cell.2.2 then (argmin nt, cell.2.1, cell.2.2) else cell
      Except.ok ((cells2.map fun cell => cell.1).take num_neg)

/-- Temporal validity of a negative-sample result, as claimed by the spec:
entry `k` (belonging to slot `k % seed_len`) is a node whose node-time is
`<=` the seed time of that slot. -/
def temporally_valid (seed_len : ℕ) (st nt : List ℤ) (res : List ℕ) : Prop :=
  ∀ k, k < res.length → nt.getD (res.getD k 0) 0 ≤ st.getD (k % seed_len) 0

instance (seed_len : ℕ) (st nt : List ℤ) (res : List ℕ) :
    Decidable (temporally_valid seed_len st nt res) :=
  Nat.decidableBallLT _ _

/-- Lookup in an association list by key, embedding a Python `dict` read
(`d[k]` / `d.get(k)`) for a dict built by inserting the pairs in order with
no duplicate keys. -/
def dictGet {κ β : Type} [DecidableEq κ] : List (κ × β) → κ → Option β
  | [], _ => none
  | (k, v) :: rest, key => if key = k then some v else dictGet rest key

/-- Embeds `tensor.unique(return_inverse=True)` on a 1-D tensor of node ids:
the sorted list of distinct values, together with, for each original
position, the index of its value in that sorted list. -/
def unique_inverse (l : List ℕ) : List ℕ × List ℕ :=
  let u := List.insertionSort (· ≤ ·) l.dedup
  (u, l.map fun x => u.indexOf x)

/-- Embeds `t.view(-1, w)` on the logical (row-major) element sequence of a
tensor: rows of width `w`; fails like `torch` when `w` is zero or does not
divide the number of elements. -/
def viewByWidth (w : ℕ) (l : List ℕ) : Except SamplerError (List (List ℕ)) :=
  if w = 0 then Except.error SamplerError.viewError
  else if l.length % w = 0 then
    Except.ok ((List.range (l.length / w)).map fun i => (l.drop (i * w)).take w)
  else Except.error SamplerError.viewError

/-- Embeds `t.view(r, -1)` on the logical (row-major) element sequence of a
tensor: `r` rows; fails like `torch` when `r` is zero or does not divide the
number of elements. -/
def viewByRows (r : ℕ) (l : List ℕ) : Except SamplerError (List (List ℕ)) :=
  if r = 0 then Except.error SamplerError.viewError
  else if l.length % r = 0 then
    Except.ok ((List.range r).map fun i =>
      (l.drop (i * (l.length / r))).take (l.length / r))
  else Except.error SamplerError.viewError

/-- Embeds `t.t()` on a rectangular 2-D tensor given as a list of rows. -/
def tmat (m : List (List ℕ)) : List (List ℕ) :=
  (List.range (m.headD []).length).map fun j => m.map fun r => r.getD j 0

/-- Embeds `t.squeeze(-1)` on a 2-D tensor: if the trailing dimension is 1
the matrix collapses to a flat vector (`Sum.inl`), otherwise it is returned
unchanged (`Sum.inr`). -/
def squeezeLast (m : List (List ℕ)) : Sum (List ℕ) (List (List ℕ)) :=
  if m.all (fun r => r.length == 1) then Sum.inl (m.map fun r => r.getD 0 0)
  else Sum.inr m

/-- The metadata tuple attached by `edge_sample` to its output: either the
binary-mode tuple `(index, edge_label_index, edge_label, seed_time)` or the
triplet-mode tuple `(index, src_index, dst_pos_index, dst_neg_index,
seed_time)`; `dst_neg_index` is a matrix or, squeezed, a flat vector. -/
inductive MetaOut
  | binaryM (index : List ℕ) (edge_label_index : List (List ℕ))
      (edge_label : Option (List ℚ)) (seed_time : Option (List ℤ))
  | tripletM (index : List ℕ) (src_index dst_pos_index : List ℕ)
      (dst_neg_index : Sum (List ℕ) (List (List ℕ)))
      (seed_time : Option (List ℤ))
deriving DecidableEq, Repr

/-- Embeds the homogeneous `SamplerOutput` dataclass. -/
structure SamplerOut where
  node : List ℕ
  row : List ℕ
  col : List ℕ
  edge : List ℕ
  batch : Option (List ℕ)
  metadata : Option MetaOut
deriving DecidableEq, Repr

/-- Embeds the heterogeneous `HeteroSamplerOutput` dataclass (fields keyed by
node type / edge type). -/
structure HSamplerOut where
  node : List (String × List ℕ)
  row : List ((String × String × String) × List ℕ)
  col : List ((String × String × String) × List ℕ)
  edge : List ((String × String × String) × List ℕ)
  batch : Option (List (String × List ℕ))
  metadata : Option MetaOut
deriving DecidableEq, Repr

/-- Embeds `EdgeSamplerInput`: example indices, the positive `src`/`dst`
endpoints, the optional edge labels and the optional per-edge seed times. -/
structure EdgeInput where
  index : List ℕ
  src : List ℕ
  dst : List ℕ
  edge_label : Option (List ℚ)
  edge_label_time : Option (List ℤ)
deriving DecidableEq, Repr

/-- Result of the negative-sampling prelude of `edge_sample` (lines 409-460
of the source): the extended `src`/`dst`, the synthesized labels, the
per-endpoint seed times and `num_neg`. -/
structure PreludeOut where
  src : List ℕ
  dst : List ℕ
  edge_label : Option (List ℚ)
  src_time : Option (List ℤ)
  dst_time : Option (List ℤ)
  num_neg : ℕ
deriving DecidableEq, Repr

/-- Embeds the negative-sampling prelude of `edge_sample` (the block guarded
by `if neg_sampling is not None`, plus the trivial pass-through when no
negative sampling is configured).  `src_node_time` / `dst_node_time` are the
per-endpoint node-time tensors the source obtains from `node_time` (directly,
or by a dict lookup on the input edge type).  In `binary` mode negatives are
appended to both endpoints and zero labels to the (possibly synthesized
all-ones) labels; in `triplet` mode negatives are appended to `dst` only and
`edge_label` must be absent.  `tensor.repeat(k)` on the seed-time tensor
requires an integral non-negative `k`, as in `torch`. -/
def neg_prelude (randS randD : ℕ → ℕ) (num_src_nodes num_dst_nodes : ℕ)
    (src_node_time dst_node_time : Option (List ℤ))
    (neg_sampling : Option NegSamplingConfig)
    (src0 dst0 : List ℕ) (edge_label0 : Option (List ℚ))
    (elt : Option (List ℤ)) :
    Except SamplerError PreludeOut :=
  match neg_sampling with
  | none => Except.ok ⟨src0, dst0, edge_label0, elt, elt, 0⟩
  | some ns =>
    let num_pos := src0.length
    let num_neg := math_ceil ((num_pos : ℚ) * ns.amount)
    match ns.mode with
    | NegMode.binary =>
      match neg_sample randS src0 ns.amount num_src_nodes elt src_node_time with
      | Except.error e => Except.error e
      | Except.ok src_neg =>
        match neg_sample randD dst0 ns.amount num_dst_nodes elt dst_node_time with
        | Except.error e => Except.error e
        | Except.ok dst_neg =>
          let lab0 := match edge_label0 with
            | none => List.replicate num_pos (1 : ℚ)
            | some l => l
          let lab := lab0 ++ List.replicate num_neg (0 : ℚ)
          match elt with
          | none =>
            Except.ok ⟨src0 ++ src_neg, dst0 ++ dst_neg, some lab, none, none, num_neg⟩
          | some t =>
            let tt := (List.flatten (List.replicate (1 + math_ceil ns.amount) t)).take
              (num_pos + num_neg)
            Except.ok ⟨src0 ++ src_neg, dst0 ++ dst_neg, some lab, some tt, some tt,
              num_neg⟩
    | NegMode.triplet =>
      match neg_sample randD dst0 ns.amount num_dst_nodes elt dst_node_time with
      | Except.error e => Except.error e
      | Except.ok dst_neg =>
        if edge_label0.isSome then Except.error SamplerError.edgeLabelSet
        else
          match elt with
          | none => Except.ok ⟨src0, dst0 ++ dst_neg, none, none, none, num_neg⟩
          | some t =>
            if ns.amount.den = 1 ∧ 0 ≤ ns.amount then
              Except.ok ⟨src0, dst0 ++ dst_neg, none, some t,
                some (List.flatten (List.replicate (1 + ns.amount.num.toNat) t)), num_neg⟩
            else Except.error SamplerError.typeError

/-- Shape statement for triplet-mode metadata, as the spec describes it:
`src_index` and `dst_pos_index` of length `num_pos`; `dst_neg_index` a
`num_pos × amount` matrix (squeezed to a flat vector of length `num_pos`
when `amount = 1`); in disjoint mode every entry of row `i` is a seed
position whose batch id (`position % num_pos`) is `i`, i.e. the negative
destinations allotted to positive example `i`. -/
def tripletShape (num_pos a : ℕ) (disjoint : Bool) : Option MetaOut → Prop
  | some (MetaOut.tripletM _ si dpi dni _) =>
    si.length = num_pos ∧ dpi.length = num_pos ∧
    (match dni with
     | Sum.inl v => a = 1 ∧ v.length = num_pos ∧
         (disjoint = true → ∀ i, i < num_pos → v.getD i 0 % num_pos = i)
     | Sum.inr mm => a ≠ 1 ∧ mm.length = num_pos ∧ (∀ r ∈ mm, r.length = a) ∧
         (disjoint = true → ∀ i, i < num_pos →
           ∀ e ∈ mm.getD i [], e % num_pos = i))
  | _ => False

/-- Helper: attach a metadata tuple to a homogeneous sampler output
(`out.metadata = ...`). -/
def SamplerOut.withMeta (o : SamplerOut) (m : MetaOut) : SamplerOut :=
  { o with metadata := some m }

/-- Helper: `out.batch = out.batch % num_pos` on a homogeneous output whose
batch tensor is `b`. -/
def SamplerOut.withBatchMod (o : SamplerOut) (b : List ℕ) (num_pos : ℕ) :
    SamplerOut :=
  { o with batch := some (b.map fun x => x % num_pos) }

/-- Helper: attach a metadata tuple to a heterogeneous sampler output. -/
def HSamplerOut.withMeta (o : HSamplerOut) (m : MetaOut) : HSamplerOut :=
  { o with metadata := some m }

/-- Helper: `out.batch[key] = batch % num_pos` for every key of a
heterogeneous output whose batch dict is `bd`. -/
def HSamplerOut.withBatchMod (o : HSamplerOut) (bd : List (String × List ℕ))
    (num_pos : ℕ) : HSamplerOut :=
  { o with batch := some (bd.map fun kv => (kv.1, kv.2.map fun x => x % num_pos)) }

/-- Embeds `edge_sample` of `sampler/neighbor_sampler.py` for the homogeneous
branch (`input_type is None`).  `sample_fn` abstracts the engine call
(`seed`, `seed_time` ↦ output); `randS`/`randD` are the RNG streams consumed
by the two potential `neg_sample` calls.  The leading guard embeds
`assert edge_label_time is None or disjoint`.  The pair
`(seed, inverse_seed)` is produced by `unique_inverse` exactly when
`disjoint` is false; the `inverse_seed` binding is only consulted in that
case, so computing it unconditionally is equivalent to the source's
conditional assignment. -/
def edge_sample (randS randD : ℕ → ℕ)
    (sample_fn : List ℕ → Option (List ℤ) → SamplerOut)
    (num_src_nodes num_dst_nodes : ℕ) (disjoint : Bool)
    (node_time : Option (List ℤ))
    (neg_sampling : Option NegSamplingConfig)
    (input : EdgeInput) :
    Except SamplerError SamplerOut :=
  if input.edge_label_time.isSome && !disjoint then
    Except.error SamplerError.disjointRequired
  else
    let num_pos := input.src.length
    match neg_prelude randS randD num_src_nodes num_dst_nodes node_time node_time
        neg_sampling input.src input.dst input.edge_label input.edge_label_time with
    | Except.error e => Except.error e
    | Except.ok p =>
      let seed0 := p.src ++ p.dst
      let uniq := unique_inverse seed0
      let seed := if disjoint then seed0 else uniq.1
      let inverse_seed := uniq.2
      let seed_time : Option (List ℤ) :=
        match input.edge_label_time with
        | none => none
        | some _ => some (p.src_time.getD [] ++ p.dst_time.getD [])
      let out0 := sample_fn seed seed_time
      let isBin : Bool := match neg_sampling with
        | none => true
        | some ns => ns.is_binary
      if isBin then
        if disjoint then
          match out0.batch with
          | none => Except.error SamplerError.batchMissing
          | some b =>
            match viewByRows 2 (List.range (2 * seed.length)) with
            | Except.error e => Except.error e
            | Except.ok eli =>
              Except.ok ((out0.withBatchMod b num_pos).withMeta
                (MetaOut.binaryM input.index eli p.edge_label seed_time))
        else
          match viewByRows 2 inverse_seed with
          | Except.error e => Except.error e
          | Except.ok eli =>
            Except.ok (out0.withMeta
              (MetaOut.binaryM input.index eli p.edge_label seed_time))
      else
        if disjoint then
          match out0.batch with
          | none => Except.error SamplerError.batchMissing
          | some b =>
            match viewByWidth num_pos
                (List.range' (2 * num_pos) (seed.length - 2 * num_pos)) with
            | Except.error e => Except.error e
            | Except.ok m =>
              match viewByRows num_pos (List.flatten (tmat m)) with
              | Except.error e => Except.error e
              | Except.ok m2 =>
                Except.ok ((out0.withBatchMod b num_pos).withMeta
                  (MetaOut.tripletM input.index (List.range num_pos)
                    (List.range' num_pos num_pos) (squeezeLast m2) p.src_time))
        else
          match viewByRows num_pos (inverse_seed.drop (2 * num_pos)) with
          | Except.error e => Except.error e
          | Except.ok m2 =>
            Except.ok (out0.withMeta
              (MetaOut.tripletM input.index (inverse_seed.take num_pos)
                ((inverse_seed.drop num_pos).take num_pos) (squeezeLast m2)
                p.src_time))

/-- Embeds `edge_sample` of `sampler/neighbor_sampler.py` for the
heterogeneous branch (`input_type is not None`).  `node_time` is the per-type
node-time dict; the per-endpoint node times are obtained by `dict.get` on
the source / destination node type.  When the two endpoint types are
distinct, `src` and `dst` form two seed pools (deduplicated separately when
not disjoint); with a single endpoint type they are concatenated first.  In
the distinct-type branch `seed_dict[input_type[0]]` is the (possibly
deduplicated) `src` pool and `seed_dict[input_type[-1]]` the `dst` pool,
which the embedding references directly. -/
def edge_sample_hetero (randS randD : ℕ → ℕ)
    (sample_fn : List (String × List ℕ) → Option (List (String × List ℤ)) →
      HSamplerOut)
    (num_src_nodes num_dst_nodes : ℕ) (disjoint : Bool)
    (input_type : String × String × String)
    (node_time : Option (List (String × List ℤ)))
    (neg_sampling : Option NegSamplingConfig)
    (input : EdgeInput) :
    Except SamplerError HSamplerOut :=
  if input.edge_label_time.isSome && !disjoint then
    Except.error SamplerError.disjointRequired
  else
    let num_pos := input.src.length
    let t0 := input_type.1
    let tN := input_type.2.2
    let src_node_time := node_time.bind fun d => dictGet d t0
    let dst_node_time := node_time.bind fun d => dictGet d tN
    match neg_prelude randS randD num_src_nodes num_dst_nodes src_node_time
        dst_node_time neg_sampling input.src input.dst input.edge_label
        input.edge_label_time with
    | Except.error e => Except.error e
    | Except.ok p =>
      let isBin : Bool := match neg_sampling with
        | none => true
        | some ns => ns.is_binary
      if t0 ≠ tN then
        -- Two distinct node types.
        let us := unique_inverse p.src
        let ud := unique_inverse p.dst
        let srcS := if disjoint then p.src else us.1
        let dstS := if disjoint then p.dst else ud.1
        let inverse_src := us.2
        let inverse_dst := ud.2
        let seed_dict := [(t0, srcS), (tN, dstS)]
        let seed_time_dict : Option (List (String × List ℤ)) :=
          match input.edge_label_time with
          | none => none
          | some _ => some [(t0, p.src_time.getD []), (tN, p.dst_time.getD [])]
        let out0 := sample_fn seed_dict seed_time_dict
        match (if disjoint then
            (match out0.batch with
             | none => Except.error SamplerError.batchMissing
             | some bd => Except.ok (out0.withBatchMod bd num_pos))
          else Except.ok out0 : Except SamplerError HSamplerOut) with
        | Except.error e => Except.error e
        | Except.ok out1 =>
          if isBin then
            if disjoint then
              let a := List.range (num_pos + p.num_neg)
              match viewByRows 2 (a ++ a) with
              | Except.error e => Except.error e
              | Except.ok eli =>
                Except.ok (out1.withMeta
                  (MetaOut.binaryM input.index eli p.edge_label p.src_time))
            else
              Except.ok (out1.withMeta
                (MetaOut.binaryM input.index [inverse_src, inverse_dst]
                  p.edge_label p.src_time))
          else
            if disjoint then
              match viewByWidth num_pos
                  (List.range' num_pos (dstS.length - num_pos)) with
              | Except.error e => Except.error e
              | Except.ok m =>
                match viewByRows num_pos (List.flatten (tmat m)) with
                | Except.error e => Except.error e
                | Except.ok m2 =>
                  Except.ok (out1.withMeta
                    (MetaOut.tripletM input.index (List.range num_pos)
                      (List.range num_pos) (squeezeLast m2) p.src_time))
            else
              match viewByRows num_pos (inverse_dst.drop num_pos) with
              | Except.error e => Except.error e
              | Except.ok m2 =>
                Except.ok (out1.withMeta
                  (MetaOut.tripletM input.index inverse_src
                    (inverse_dst.take num_pos) (squeezeLast m2) p.src_time))
      else
        -- A single node type: merge source and destination.
        let seed0 := p.src ++ p.dst
        let uniq := unique_inverse seed0
        let seedS := if disjoint then seed0 else uniq.1
        let inverse_seed := uniq.2
        let seed_dict := [(t0, seedS)]
        let seed_time_dict : Option (List (String × List ℤ)) :=
          match input.edge_label_time with
          | none => none
          | some _ => some [(t0, p.src_time.getD [] ++ p.dst_time.getD [])]
        let out0 := sample_fn seed_dict seed_time_dict
        match (if disjoint then
            (match out0.batch with
             | none => Except.error SamplerError.batchMissing
             | some bd => Except.ok (out0.withBatchMod bd num_pos))
          else Except.ok out0 : Except SamplerError HSamplerOut) with
        | Except.error e => Except.error e
        | Except.ok out1 =>
          if isBin then
            if disjoint then
              match viewByRows 2 (List.range (2 * (num_pos + p.num_neg))) with
              | Except.error e => Except.error e
              | Except.ok eli =>
                Except.ok (out1.withMeta
                  (MetaOut.binaryM input.index eli p.edge_label p.src_time))
            else
              match viewByRows 2 inverse_seed with
              | Except.error e => Except.error e
              | Except.ok eli =>
                Except.ok (out1.withMeta
                  (MetaOut.binaryM input.index eli p.edge_label p.src_time))
          else
            if disjoint then
              match viewByWidth num_pos
                  (List.range' (2 * num_pos) (seedS.length - 2 * num_pos)) with
              | Except.error e => Except.error e
              | Except.ok m =>
                match viewByRows num_pos (List.flatten (tmat m)) with
                | Except.error e => Except.error e
                | Except.ok m2 =>
                  Except.ok (out1.withMeta
                    (MetaOut.tripletM input.index (List.range num_pos)
                      (List.range' num_pos num_pos) (squeezeLast m2) p.src_time))
            else
              match viewByRows num_pos (inverse_seed.drop (2 * num_pos)) with
              | Except.error e => Except.error e
              | Except.ok m2 =>
                Except.ok (out1.withMeta
                  (MetaOut.tripletM input.index (inverse_seed.take num_pos)
                    ((inverse_seed.drop num_pos).take num_pos) (squeezeLast m2)
                    p.src_time))

/-- A concrete engine stub used to evaluate `edge_sample` at closed inputs:
it returns the seed unchanged as the node set with a zero batch id per node
(the claims under test only consult the metadata and the batch length). -/
def const_batch_fn : List ℕ → Option (List ℤ) → SamplerOut :=
  fun s _ => ⟨s, [], [], [], some (List.replicate s.length 0), none⟩

/-- The `num_neighbors` configuration value: either a flat per-hop sequence
or a mapping from edge type to its own per-hop sequence. -/
inductive NumNeighbors
  | flat (l : List ℤ)
  | perType (d : List ((String × String × String) × List ℤ))
deriving DecidableEq, Repr

/-- Embeds `num_hops = max([0] + [len(v) for v in num_neighbors.values()])`
on a per-edge-type fanout mapping. -/
def hop_count (d : List ((String × String × String) × List ℤ)) : ℕ :=
  (d.map fun kv => kv.2.length).foldl max 0

/-- The first entry of a fanout mapping whose sequence length differs from
the hop count — the entry at which the source raises its `ValueError`. -/
def first_mismatch (d : List ((String × String × String) × List ℤ)) :
    Option ((String × String × String) × List ℤ) :=
  d.find? fun kv => kv.2.length != hop_count d

/-- Embeds `NeighborSampler._set_num_neighbors_and_num_hops`: a flat
sequence is broadcast to every edge type; the hop count is the maximum
sequence length; any entry whose length differs raises an error naming that
edge type.  On success the mapping is returned unchanged together with the
hop count. -/
def set_num_neighbors_and_num_hops
    (edge_types : List (String × String × String)) (nn : NumNeighbors) :
    Except SamplerError
      (List ((String × String × String) × List ℤ) × ℕ) :=
  let d := match nn with
    | NumNeighbors.flat l => edge_types.map fun k => (k, l)
    | NumNeighbors.perType d => d
  let num_hops := hop_count d
  match d.find? (fun kv => kv.2.length != num_hops) with
  | some kv =>
    Except.error (SamplerError.numNeighborsMismatch kv.1 num_hops kv.2.length)
  | none => Except.ok (d, num_hops)

/-- The sampler state produced for a homogeneous `Data` graph: the per-hop
fanouts, the `disjoint` flag passed at construction and the node-time tensor
collected from `time_attr`. -/
structure SamplerState where
  num_neighbors : List ℤ
  _disjoint : Bool
  node_time : Option (List ℤ)
deriving DecidableEq, Repr

/-- Embeds the `is_temporal` property. -/
def SamplerState.is_temporal (s : SamplerState) : Bool := s.node_time.isSome

/-- Embeds the `disjoint` property: `self._disjoint or self.is_temporal`. -/
def SamplerState.disjoint (s : SamplerState) : Bool :=
  s._disjoint || s.is_temporal

/-- Embeds the configuration part of `NeighborSampler.__init__` for a
homogeneous `Data` graph: the node-time tensor is collected when a
`time_attr` is given (`time_attr` is passed here as the already-collected
tensor), and `assert isinstance(num_neighbors, (list, tuple))` rejects a
per-edge-type mapping.  (The CSC conversion concerns the graph tensors and
is not consulted by any of the verified claims.) -/
def neighborSamplerInitData (time_attr : Option (List ℤ))
    (num_neighbors : NumNeighbors) (disjoint : Bool) :
    Except SamplerError SamplerState :=
  let node_time := time_attr
  match num_neighbors with
  | NumNeighbors.flat l => Except.ok ⟨l, disjoint, node_time⟩
  | NumNeighbors.perType _ => Except.error SamplerError.numNeighborsNotSequence

/-- The sampler state produced for a heterogeneous graph. -/
structure HSamplerState where
  num_neighbors : List ((String × String × String) × List ℤ)
  num_hops : ℕ
  _disjoint : Bool
  node_time : Option (List (String × List ℤ))
  edge_types : List (String × String × String)
deriving DecidableEq, Repr

/-- Embeds the `is_temporal` property of a heterogeneous sampler. -/
def HSamplerState.is_temporal (s : HSamplerState) : Bool := s.node_time.isSome

/-- Embeds the `disjoint` property of a heterogeneous sampler. -/
def HSamplerState.disjoint (s : HSamplerState) : Bool :=
  s._disjoint || s.is_temporal

/-- Embeds the configuration part of `NeighborSampler.__init__` for a
heterogeneous graph: node times are collected per type, and the fanout
configuration is normalized and validated by
`_set_num_neighbors_and_num_hops`. -/
def neighborSamplerInitHetero (edge_types : List (String × String × String))
    (time_attr : Option (List (String × List ℤ)))
    (num_neighbors : NumNeighbors) (disjoint : Bool) :
    Except SamplerError HSamplerState :=
  match set_num_neighbors_and_num_hops edge_types num_neighbors with
  | Except.error e => Except.error e
  | Except.ok dh => Except.ok ⟨dh.1, dh.2, disjoint, time_attr, edge_types⟩

/-- Embeds `'__'.join(key)` on an edge-type triple, the flat string key used
for the C++ interface. -/
def relKey (e : String × String × String) : String :=
  e.1 ++ "__" ++ e.2.1 ++ "__" ++ e.2.2

/-- Embeds `self.to_rel_type = {key: '__'.join(key) for key in edge_types}`:
a dict read on the triple-keyed mapping. -/
def toRelType (edge_types : List (String × String × String))
    (e : String × String × String) : Option String :=
  dictGet (edge_types.map fun k => (k, relKey k)) e

/-- Embeds `self.to_edge_type = {'__'.join(key): key for key in edge_types}`:
a dict read on the string-keyed mapping.  A Python dict comprehension keeps
the *last* binding of a duplicated key, hence the reversed list. -/
def toEdgeType (edge_types : List (String × String × String)) (s : String) :
    Option (String × String × String) :=
  dictGet ((edge_types.map fun k => (relKey k, k)).reverse) s

/-- Whether a character list contains two adjacent underscores. -/
def hasSepL : List Char → Bool
  | a :: b :: rest => (a = '_' && b = '_') || hasSepL (b :: rest)
  | _ => false

/-- Whether a type name contains the reserved separator `"__"`. -/
def containsSep (s : String) : Bool := hasSepL s.toList

/-- Embeds `repeat` of `nn/repeat.py`: a numeric scalar becomes `length`
copies; a sequence is truncated to `length` if longer, padded by repeating
its last element if shorter (an empty sequence raises `IndexError` on
`src[-1]`), and returned unchanged if its length matches. -/
inductive ScalarOrList
  | scalar (x : ℚ)
  | seq (xs : List ℚ)
deriving DecidableEq, Repr

/-- The body of `repeat(src, length)`. -/
def repeat' (src : ScalarOrList) (length : ℕ) :
    Except SamplerError (List ℚ) :=
  match src with
  | ScalarOrList.scalar x => Except.ok (List.replicate length x)
  | ScalarOrList.seq xs =>
    if xs.length > length then Except.ok (xs.take length)
    else if xs.length < length then
      match xs.getLast? with
      | none => Except.error SamplerError.indexError
      | some last => Except.ok (xs ++ List.replicate (length - xs.length) last)
    else Except.ok xs

/-- Embeds `tensor.min()` on a 1-D label tensor (`None` on an empty tensor,
where `torch` would raise). -/
def tensor_min : List ℚ → Option ℚ
  | [] => none
  | x :: xs => some (xs.foldl min x)

/-- Embeds the negative-sampling validation part of `LinkLoader.__init__`:
a non-zero deprecated `neg_sampling_ratio` becomes a binary config; with a
binary config and labels whose minimum is 0 the labels are shifted by one so
that 0 denotes "negative"; a `triplet` config together with a supplied
`edge_label` raises a `ValueError` before any sampling can occur.  On
success it returns the stored config and (possibly shifted) labels. -/
def link_loader_init (neg_sampling : Option NegSamplingConfig)
    (neg_sampling_ratio : Option ℚ) (edge_label : Option (List ℚ)) :
    Except SamplerError (Option NegSamplingConfig × Option (List ℚ)) :=
  let ns : Option NegSamplingConfig :=
    match neg_sampling_ratio with
    | some r => if r ≠ 0 then some ⟨NegMode.binary, r⟩ else neg_sampling
    | none => neg_sampling
  let el1 : Option (List ℚ) :=
    match ns, edge_label with
    | some c, some l =>
      if c.is_binary ∧ tensor_min l = some 0 then some (l.map fun x => x + 1)
      else some l
    | _, _ => edge_label
  let isTrip : Bool := match ns with
    | none => false
    | some c => c.is_triplet
  if isTrip && el1.isSome then Except.error SamplerError.edgeLabelSet
  else Except.ok (ns, el1)

end PyG

namespace PyG

/-! ## Helper lemmas -/

theorem dictGet_map_self {κ β : Type} [DecidableEq κ] (f : κ → β) :
    ∀ (l : List κ) (e : κ), e ∈ l →
      dictGet (l.map fun k => (k, f k)) e = some (f e) := by
  intro l
  induction l with
  | nil => intro e he; cases he
  | cons k rest ih =>
    intro e he
    simp only [List.map_cons, dictGet]
    by_cases hek : e = k
    · subst hek; simp
    · rw [if_neg hek]
      exact ih e (by rcases List.mem_cons.mp he with h | h; exact absurd h hek; exact h)

theorem dictGet_relKey_inj :
    ∀ (l : List (String × String × String)) (e : String × String × String),
      e ∈ l → (∀ e' ∈ l, relKey e' = relKey e → e' = e) →
      dictGet (l.map fun k => (relKey k, k)) (relKey e) = some e := by
  intro l
  induction l with
  | nil => intro e he; cases he
  | cons k rest ih =>
    intro e he huniq
    simp only [List.map_cons, dictGet]
    by_cases hk : relKey e = relKey k
    · rw [if_pos hk]
      have : k = e := huniq k (List.mem_cons_self _ _) hk.symm
      rw [this]
    · rw [if_neg hk]
      have he' : e ∈ rest := by
        rcases List.mem_cons.mp he with h | h
        · exact absurd (by rw [h]) hk
        · exact h
      exact ih e he' (fun e' h' => huniq e' (List.mem_cons_of_mem _ h'))

end PyG

namespace PyG

/-- C8 counterexample: two edge types whose components are all free of the
reserved separator `"__"` can still collide on the flat key (single
underscores meeting at the joins), and then the dict-composition roundtrip
returns the other triple. -/
theorem rel_type_roundtrip_cex :
    containsSep "a_" = false ∧ containsSep "b" = false ∧
    containsSep "c" = false ∧ containsSep "a" = false ∧
    containsSep "_b" = false ∧
    (toRelType [("a_", "b", "c"), ("a", "_b", "c")] ("a_", "b", "c")).bind
      (toEdgeType [("a_", "b", "c"), ("a", "_b", "c")]) =
      some ("a", "_b", "c") ∧
    (("a", "_b", "c") : String × String × String) ≠ ("a_", "b", "c") := by
  decide

/-- C8 amended: the roundtrip through `to_rel_type` and `to_edge_type`
returns the original triple for a registered edge type whose components do
not contain the separator, provided additionally that no other registered
edge type shares its flat key. -/
theorem rel_type_roundtrip (ets : List (String × String × String))
    (e : String × String × String) (he : e ∈ ets)
    (h1 : containsSep e.1 = false) (h2 : containsSep e.2.1 = false)
    (h3 : containsSep e.2.2 = false)
    (huniq : ∀ e' ∈ ets, relKey e' = relKey e → e' = e) :
    (toRelType ets e).bind (toEdgeType ets) = some e := by
  have hrel : toRelType ets e = some (relKey e) := dictGet_map_self relKey ets e he
  rw [hrel]
  show toEdgeType ets (relKey e) = some e
  unfold toEdgeType
  rw [← List.map_reverse]
  exact dictGet_relKey_inj ets.reverse e (List.mem_reverse.mpr he)
    (fun e' h' => huniq e' (List.mem_reverse.mp h'))

/-- Closed witness for `rel_type_roundtrip`. -/
theorem rel_type_roundtrip_witness :
    (toRelType [("u", "r", "v")] ("u", "r", "v")).bind
      (toEdgeType [("u", "r", "v")]) = some ("u", "r", "v") :=
  rel_type_roundtrip [("u", "r", "v")] ("u", "r", "v") (by decide) (by decide)
    (by decide) (by decide) (by decide)

end PyG

namespace PyG

/-- C9: `repeat` turns a numeric scalar into `length` copies, and maps a
non-empty sequence to a sequence of length exactly `length` — the first
`length` elements when longer, the sequence padded with its last element
when shorter, and the sequence itself when the lengths agree. -/
theorem repeat_spec (x : ℚ) (len : ℕ) (xs : List ℚ) (hne : xs ≠ []) :
    repeat' (ScalarOrList.scalar x) len = Except.ok (List.replicate len x) ∧
    (List.replicate len x).length = len ∧
    repeat' (ScalarOrList.seq xs) len =
      Except.ok (if xs.length > len then xs.take len
        else if xs.length < len then
          xs ++ List.replicate (len - xs.length) (xs.getLast hne)
        else xs) ∧
    (∀ res, repeat' (ScalarOrList.seq xs) len = Except.ok res →
      res.length = len) := by
  refine ⟨rfl, List.length_replicate _ _, ?_, ?_⟩
  · simp only [repeat']
    by_cases hgt : xs.length > len
    · rw [if_pos hgt, if_pos hgt]
    · rw [if_neg hgt, if_neg hgt]
      by_cases hlt : xs.length < len
      · rw [if_pos hlt, if_pos hlt, List.getLast?_eq_getLast xs hne]
      · rw [if_neg hlt, if_neg hlt]
  · intro res hres
    simp only [repeat'] at hres
    by_cases hgt : xs.length > len
    · rw [if_pos hgt] at hres
      cases hres
      simp [List.length_take]
      omega
    · rw [if_neg hgt] at hres
      by_cases hlt : xs.length < len
      · rw [if_pos hlt, List.getLast?_eq_getLast xs hne] at hres
        cases hres
        simp [List.length_append, List.length_replicate]
        omega
      · rw [if_neg hlt] at hres
        cases hres
        omega

/-- Closed witness for `repeat_spec`. -/
theorem repeat_spec_witness :
    repeat' (ScalarOrList.scalar (2 : ℚ)) 3 =
      Except.ok (List.replicate 3 (2 : ℚ)) ∧
    repeat' (ScalarOrList.seq [1, 2]) 4 = Except.ok [1, 2, 2, 2] := by
  have h := repeat_spec (2 : ℚ) 3 [1, 2] (by decide)
  refine ⟨h.1, ?_⟩
  have h4 := (repeat_spec (2 : ℚ) 4 [1, 2] (by decide)).2.2.1
  simpa using h4

end PyG

namespace PyG

/-- C10: for a homogeneous `Data` graph the sampler constructor accepts
`num_neighbors` only as a flat per-hop sequence — a per-edge-type mapping
fails the construction-time assertion — while the heterogeneous constructor
accepts the mapping form (here: any mapping whose sequences all have the hop
count length). -/
theorem data_num_neighbors_spec :
    (∀ (d : List ((String × String × String) × List ℤ))
        (t : Option (List ℤ)) (dj : Bool),
      neighborSamplerInitData t (NumNeighbors.perType d) dj =
        Except.error SamplerError.numNeighborsNotSequence) ∧
    (∀ (l : List ℤ) (t : Option (List ℤ)) (dj : Bool),
      neighborSamplerInitData t (NumNeighbors.flat l) dj =
        Except.ok ⟨l, dj, t⟩) ∧
    (∀ (ets : List (String × String × String))
        (t : Option (List (String × List ℤ))) (dj : Bool)
        (d : List ((String × String × String) × List ℤ)),
      (∀ kv ∈ d, kv.2.length = hop_count d) →
      neighborSamplerInitHetero ets t (NumNeighbors.perType d) dj =
        Except.ok ⟨d, hop_count d, dj, t, ets⟩) := by
  refine ⟨fun d t dj => rfl, fun l t dj => rfl, fun ets t dj d hall => ?_⟩
  have hfind : d.find? (fun kv => kv.2.length != hop_count d) = none := by
    rw [List.find?_eq_none]
    intro kv hkv
    simpa using hall kv hkv
  simp only [neighborSamplerInitHetero, set_num_neighbors_and_num_hops, hfind]

/-- Closed witness for `data_num_neighbors_spec`. -/
theorem data_num_neighbors_spec_witness :
    neighborSamplerInitData none
        (NumNeighbors.perType [(("u", "r", "v"), [5])]) false =
      Except.error SamplerError.numNeighborsNotSequence ∧
    neighborSamplerInitHetero [("u", "r", "v")] none
        (NumNeighbors.perType [(("u", "r", "v"), [5, 5])]) false =
      Except.ok ⟨[(("u", "r", "v"), [5, 5])], 2, false, none, [("u", "r", "v")]⟩ := by
  refine ⟨data_num_neighbors_spec.1 _ _ _, ?_⟩
  have h := data_num_neighbors_spec.2.2 [("u", "r", "v")] none false
    [(("u", "r", "v"), [5, 5])] (by decide)
  simpa using h

end PyG

namespace PyG

/-- C6: heterogeneous construction with a per-edge-type fanout mapping whose
entries do not all have the hop-count length fails with an error naming the
(first) mismatching edge type; on success the mapping is stored unchanged
(no truncation or padding), with every sequence of hop-count length. -/
theorem fanout_mismatch_spec (ets : List (String × String × String))
    (t : Option (List (String × List ℤ))) (dj : Bool)
    (d : List ((String × String × String) × List ℤ)) :
    ((∀ kv ∈ d, kv.2.length = hop_count d) →
      neighborSamplerInitHetero ets t (NumNeighbors.perType d) dj =
        Except.ok ⟨d, hop_count d, dj, t, ets⟩) ∧
    (∀ kv, first_mismatch d = some kv →
      kv ∈ d ∧ kv.2.length ≠ hop_count d ∧
      neighborSamplerInitHetero ets t (NumNeighbors.perType d) dj =
        Except.error (SamplerError.numNeighborsMismatch kv.1 (hop_count d)
          kv.2.length)) ∧
    ((∃ kv ∈ d, kv.2.length ≠ hop_count d) → (first_mismatch d).isSome = true) := by
  refine ⟨?_, ?_, ?_⟩
  · intro hall
    have hfind : d.find? (fun kv => kv.2.length != hop_count d) = none := by
      rw [List.find?_eq_none]
      intro kv hkv
      simpa using hall kv hkv
    simp only [neighborSamplerInitHetero, set_num_neighbors_and_num_hops, hfind]
  · intro kv hkv
    have hkv' : d.find? (fun kv => kv.2.length != hop_count d) = some kv := hkv
    have hmem : kv ∈ d := List.mem_of_find?_eq_some hkv'
    have hp := List.find?_some hkv'
    refine ⟨hmem, by simpa using hp, ?_⟩
    simp only [neighborSamplerInitHetero, set_num_neighbors_and_num_hops, hkv']
  · rintro ⟨kv, hkv, hne⟩
    show (d.find? (fun kv => kv.2.length != hop_count d)).isSome = true
    rw [List.find?_isSome]
    exact ⟨kv, hkv, by simpa using hne⟩

/-- Closed witness for `fanout_mismatch_spec`. -/
theorem fanout_mismatch_spec_witness :
    neighborSamplerInitHetero [("u", "r", "v"), ("u", "s", "v")] none
        (NumNeighbors.perType
          [(("u", "r", "v"), [5, 5]), (("u", "s", "v"), [5])]) false =
      Except.error (SamplerError.numNeighborsMismatch ("u", "s", "v") 2 1) := by
  have h := (fanout_mismatch_spec [("u", "r", "v"), ("u", "s", "v")] none false
    [(("u", "r", "v"), [5, 5]), (("u", "s", "v"), [5])]).2.1
    (("u", "s", "v"), [5]) (by decide)
  simpa using h.2.2

end PyG

namespace PyG

/-- C5: temporal information forces disjoint sampling — the `disjoint`
property is `True` whenever a node-time attribute is set, regardless of the
constructor flag (homogeneous and heterogeneous samplers alike), and
`edge_sample` fails its leading assertion whenever a per-edge seed time is
supplied with `disjoint = False`. -/
theorem temporal_forces_disjoint :
    (∀ (nt : List ℤ) (nn : List ℤ) (dj : Bool) (s : SamplerState),
      neighborSamplerInitData (some nt) (NumNeighbors.flat nn) dj =
        Except.ok s → s.disjoint = true) ∧
    (∀ (ets : List (String × String × String))
        (nt : List (String × List ℤ)) (nn : NumNeighbors) (dj : Bool)
        (s : HSamplerState),
      neighborSamplerInitHetero ets (some nt) nn dj = Except.ok s →
        s.disjoint = true) ∧
    (∀ (randS randD : ℕ → ℕ) (fn : List ℕ → Option (List ℤ) → SamplerOut)
        (nsrc ndst : ℕ) (ntime : Option (List ℤ))
        (ns : Option NegSamplingConfig) (input : EdgeInput),
      input.edge_label_time.isSome = true →
      edge_sample randS randD fn nsrc ndst false ntime ns input =
        Except.error SamplerError.disjointRequired) ∧
    (∀ (randS randD : ℕ → ℕ)
        (fnH : List (String × List ℕ) → Option (List (String × List ℤ)) →
          HSamplerOut)
        (nsrc ndst : ℕ) (itype : String × String × String)
        (ntimeH : Option (List (String × List ℤ)))
        (ns : Option NegSamplingConfig) (input : EdgeInput),
      input.edge_label_time.isSome = true →
      edge_sample_hetero randS randD fnH nsrc ndst false itype ntimeH ns input =
        Except.error SamplerError.disjointRequired) := by
  refine ⟨?_, ?_, ?_, ?_⟩
  · intro nt nn dj s h
    cases h
    simp [SamplerState.disjoint, SamplerState.is_temporal]
  · intro ets nt nn dj s h
    simp only [neighborSamplerInitHetero] at h
    cases hset : set_num_neighbors_and_num_hops ets nn with
    | error e => rw [hset] at h; cases h
    | ok dh =>
      rw [hset] at h
      cases h
      simp [HSamplerState.disjoint, HSamplerState.is_temporal]
  · intro randS randD fn nsrc ndst ntime ns input h
    simp only [edge_sample, h, Bool.not_false, Bool.and_true, if_true]
  · intro randS randD fnH nsrc ndst itype ntimeH ns input h
    simp only [edge_sample_hetero, h, Bool.not_false, Bool.and_true, if_true]

/-- Closed witness for `temporal_forces_disjoint`. -/
theorem temporal_forces_disjoint_witness :
    SamplerState.disjoint ⟨[2], false, some [(3 : ℤ)]⟩ = true ∧
    edge_sample (fun k => k) (fun k => k) const_batch_fn 4 4 false none none
        ⟨[0], [1], [2], none, some [(7 : ℤ)]⟩ =
      Except.error SamplerError.disjointRequired :=
  ⟨temporal_forces_disjoint.1 [(3 : ℤ)] [2] false ⟨[2], false, some [(3 : ℤ)]⟩ rfl,
   temporal_forces_disjoint.2.2.1 (fun k => k) (fun k => k) const_batch_fn 4 4
     none none ⟨[0], [1], [2], none, some [(7 : ℤ)]⟩ rfl⟩

end PyG

namespace PyG

/-- C7: with `triplet` negative sampling a supplied `edge_label` makes
`LinkLoader.__init__` fail immediately (no sampling is involved in this
validation), while `edge_label = None` proceeds; the same condition is also
asserted inside `edge_sample` before any engine call. -/
theorem triplet_edge_label_spec (c : NegSamplingConfig)
    (hc : c.mode = NegMode.triplet) :
    (∀ l : List ℚ, link_loader_init (some c) none (some l) =
      Except.error SamplerError.edgeLabelSet) ∧
    (link_loader_init (some c) none none = Except.ok (some c, none)) ∧
    (∀ (randS randD : ℕ → ℕ) (fn : List ℕ → Option (List ℤ) → SamplerOut)
        (nsrc ndst : ℕ) (dj : Bool) (l : List ℚ) (idx src dst : List ℕ),
      edge_sample randS randD fn nsrc ndst dj none (some c)
        ⟨idx, src, dst, some l, none⟩ =
        Except.error SamplerError.edgeLabelSet) := by
  obtain ⟨m, q⟩ := c
  cases hc
  refine ⟨?_, ?_, ?_⟩
  · intro l
    rfl
  · rfl
  · intro randS randD fn nsrc ndst dj l idx src dst
    simp only [edge_sample, neg_prelude, neg_sample, NegSamplingConfig.is_binary]
    simp

/-- Closed witness for `triplet_edge_label_spec`. -/
theorem triplet_edge_label_spec_witness :
    link_loader_init (some ⟨NegMode.triplet, 1⟩) none (some [1, 2]) =
      Except.error SamplerError.edgeLabelSet ∧
    link_loader_init (some ⟨NegMode.triplet, 1⟩) none none =
      Except.ok (some ⟨NegMode.triplet, 1⟩, none) ∧
    edge_sample (fun k => k) (fun k => k) const_batch_fn 4 4 false none
        (some ⟨NegMode.triplet, 1⟩) ⟨[0], [1], [2], some [1], none⟩ =
      Except.error SamplerError.edgeLabelSet :=
  ⟨(triplet_edge_label_spec ⟨NegMode.triplet, 1⟩ rfl).1 [1, 2],
   (triplet_edge_label_spec ⟨NegMode.triplet, 1⟩ rfl).2.1,
   (triplet_edge_label_spec ⟨NegMode.triplet, 1⟩ rfl).2.2 (fun k => k)
     (fun k => k) const_batch_fn 4 4 false [1] [0] [1] [2]⟩

end PyG

namespace PyG

end PyG

namespace PyG

/-- C2 (failing evaluation): in homogeneous disjoint binary mode with
`num_pos = 4`, `amount = 1.0` and no initial `edge_label`, the code returns
an `edge_label` of length 8 (four ones then four zeros) but an
`edge_label_index` whose rows have length `2 * (num_pos + num_neg) = 16`
(`torch.arange(2 * seed.numel()).view(2, -1)` with `seed.numel() = 16`),
not `num_pos + num_neg = 8` as the spec requires. -/
theorem binary_disjoint_label_index_eval :
    (edge_sample (fun k => k) (fun k => k) const_batch_fn 10 10 true none
        (some ⟨NegMode.binary, 1⟩)
        ⟨[0, 1, 2, 3], [0, 1, 2, 3], [4, 5, 6, 7], none, none⟩).map
      (fun o => o.metadata) =
      Except.ok (some (MetaOut.binaryM [0, 1, 2, 3]
        [[0, 1, 2, 3, 4, 5, 6, 7, 8, 9, 10, 11, 12, 13, 14, 15],
         [16, 17, 18, 19, 20, 21, 22, 23, 24, 25, 26, 27, 28, 29, 30, 31]]
        (some [1, 1, 1, 1, 0, 0, 0, 0]) none)) ∧
    ([0, 1, 2, 3, 4, 5, 6, 7, 8, 9, 10, 11, 12, 13, 14, 15] : List ℕ).length =
      2 * (4 + 4) ∧
    ¬ ([0, 1, 2, 3, 4, 5, 6, 7, 8, 9, 10, 11, 12, 13, 14, 15] : List ℕ).length =
      4 + 4 ∧
    ([1, 1, 1, 1, 0, 0, 0, 0] : List ℚ).length = 4 + 4 := by
  refine ⟨?_, by decide, by decide, by simp⟩
  simp only [edge_sample, neg_prelude, neg_sample, NegSamplingConfig.is_binary]
  norm_num [math_ceil, viewByRows, List.range_succ, const_batch_fn,
    SamplerOut.withBatchMod, SamplerOut.withMeta, Int.toNat_ofNat]
  decide

/-- C1 counterexample: with a single seed whose seed time (0) is earlier
than every node timestamp (the only node has time 5), all five redraw rounds
fail and the fallback writes the earliest-timestamp node id, whose node-time
still exceeds the slot's seed time — the returned entry violates the claimed
`node_time <= seed_time` guarantee. -/
theorem neg_sample_fallback_cex :
    neg_sample (fun _ => 0) [0] 1 1 (some [(0 : ℤ)]) (some [(5 : ℤ)]) =
      Except.ok [0] ∧
    ¬ temporally_valid 1 [(0 : ℤ)] [(5 : ℤ)] [0] := by
  constructor
  · simp only [neg_sample]
    norm_num [math_ceil, neg_loop, redraw_round, argmin, List.range_succ]
  · decide

end PyG

namespace PyG

theorem redraw_round_length (rand : ℕ → ℕ) (nn : ℕ) (nt : List ℤ) :
    ∀ (cells : List NegCell) (c : ℕ),
      (redraw_round rand nn nt cells c).1.length = cells.length := by
  intro cells
  induction cells with
  | nil => intro c; rfl
  | cons cell rest ih =>
    intro c
    simp only [redraw_round]
    by_cases hb : cell.2.2
    · rw [if_pos hb]; simp [ih]
    · rw [if_neg hb]; simp [ih]

theorem redraw_round_sts (rand : ℕ → ℕ) (nn : ℕ) (nt : List ℤ) :
    ∀ (cells : List NegCell) (c : ℕ),
      (redraw_round rand nn nt cells c).1.map (fun x => x.2.1) =
        cells.map (fun x => x.2.1) := by
  intro cells
  induction cells with
  | nil => intro c; rfl
  | cons cell rest ih =>
    intro c
    simp only [redraw_round]
    by_cases hb : cell.2.2
    · rw [if_pos hb]; simp [ih]
    · rw [if_neg hb]; simp [ih]

theorem redraw_round_good (rand : ℕ → ℕ) (nn : ℕ) (nt : List ℤ) :
    ∀ (cells : List NegCell) (c : ℕ),
      (∀ x ∈ cells, x.2.2 = false → nt.getD x.1 0 < x.2.1) →
      ∀ y ∈ (redraw_round rand nn nt cells c).1,
        y.2.2 = false → nt.getD y.1 0 < y.2.1 := by
  intro cells
  induction cells with
  | nil => intro c _ y hy; cases hy
  | cons cell rest ih =>
    intro c hgood y hy
    simp only [redraw_round] at hy
    by_cases hb : cell.2.2
    · rw [if_pos hb] at hy
      simp only [List.mem_cons] at hy
      rcases hy with rfl | hy
      · intro hfalse
        simp only [decide_eq_false_iff_not, not_le] at hfalse
        exact hfalse
      · exact ih (c + 1) (fun x hx => hgood x (List.mem_cons_of_mem _ hx)) y hy
    · rw [if_neg hb] at hy
      simp only [List.mem_cons] at hy
      rcases hy with rfl | hy
      · exact hgood _ (List.mem_cons_self _ _)
      · exact ih c (fun x hx => hgood x (List.mem_cons_of_mem _ hx)) y hy

theorem neg_loop_length (rand : ℕ → ℕ) (nn : ℕ) (nt : List ℤ) :
    ∀ (fuel : ℕ) (cells : List NegCell) (c : ℕ),
      (neg_loop rand nn nt fuel cells c).1.length = cells.length := by
  intro fuel
  induction fuel with
  | zero => intro cells c; rfl
  | succ f ih =>
    intro cells c
    simp only [neg_loop]
    by_cases hany : cells.any (fun cell => cell.2.2)
    · rw [if_pos hany, ih, redraw_round_length]
    · rw [if_neg hany]

theorem neg_loop_sts (rand : ℕ → ℕ) (nn : ℕ) (nt : List ℤ) :
    ∀ (fuel : ℕ) (cells : List NegCell) (c : ℕ),
      (neg_loop rand nn nt fuel cells c).1.map (fun x => x.2.1) =
        cells.map (fun x => x.2.1) := by
  intro fuel
  induction fuel with
  | zero => intro cells c; rfl
  | succ f ih =>
    intro cells c
    simp only [neg_loop]
    by_cases hany : cells.any (fun cell => cell.2.2)
    · rw [if_pos hany, ih, redraw_round_sts]
    · rw [if_neg hany]

theorem neg_loop_good (rand : ℕ → ℕ) (nn : ℕ) (nt : List ℤ) :
    ∀ (fuel : ℕ) (cells : List NegCell) (c : ℕ),
      (∀ x ∈ cells, x.2.2 = false → nt.getD x.1 0 < x.2.1) →
      ∀ y ∈ (neg_loop rand nn nt fuel cells c).1,
        y.2.2 = false → nt.getD y.1 0 < y.2.1 := by
  intro fuel
  induction fuel with
  | zero => intro cells c hgood; exact hgood
  | succ f ih =>
    intro cells c hgood
    simp only [neg_loop]
    by_cases hany : cells.any (fun cell => cell.2.2)
    · rw [if_pos hany]
      exact ih _ _ (redraw_round_good rand nn nt cells c hgood)
    · rw [if_neg hany]
      exact hgood

theorem neg_loop_complete (rand : ℕ → ℕ) (nn : ℕ) (nt : List ℤ) :
    ∀ (fuel : ℕ) (cells : List NegCell) (c : ℕ),
      (neg_loop rand nn nt fuel cells c).2 = true →
      ∀ x ∈ (neg_loop rand nn nt fuel cells c).1, x.2.2 = false := by
  intro fuel
  induction fuel with
  | zero => intro cells c h; cases h
  | succ f ih =>
    intro cells c
    simp only [neg_loop]
    by_cases hany : cells.any (fun cell => cell.2.2)
    · rw [if_pos hany]
      exact ih _ _
    · rw [if_neg hany]
      intro _ x hx
      rcases Bool.eq_false_or_eq_true x.2.2 with h | h
      · exact absurd (List.any_eq_true.mpr ⟨x, hx, h⟩) hany
      · exact h

end PyG

namespace PyG

theorem math_ceil_mul_le (n : ℕ) (q : ℚ) (hq : 0 ≤ q) :
    math_ceil ((n : ℚ) * q) ≤ math_ceil q * n := by
  have h1 : (⌈(n : ℚ) * q⌉ : ℤ) ≤ (n : ℤ) * ⌈q⌉ := by
    apply Int.ceil_le.mpr
    push_cast
    exact mul_le_mul_of_nonneg_left (Int.le_ceil q) (by positivity)
  have h2 : (0 : ℤ) ≤ ⌈q⌉ := Int.ceil_nonneg hq
  unfold math_ceil
  rw [Int.toNat_le]
  push_cast [Int.toNat_of_nonneg h2]
  linarith

theorem neg_sample_length (rand : ℕ → ℕ) (seed : List ℕ) (q : ℚ) (nn : ℕ)
    (st nt : Option (List ℤ)) (res : List ℕ) (hq : 0 ≤ q)
    (h : neg_sample rand seed q nn st nt = Except.ok res) :
    res.length = math_ceil ((seed.length : ℚ) * q) := by
  match nt with
  | none =>
    simp only [neg_sample] at h
    cases h
    simp
  | some ntl =>
    match st with
    | none => simp only [neg_sample] at h; cases h
    | some stl =>
      simp only [neg_sample] at h
      cases h
      have hloop := neg_loop_length rand nn ntl 5
        ((List.range (math_ceil q * seed.length)).map fun k =>
          (rand k % nn, stl.getD (k % seed.length) 0,
            decide (stl.getD (k % seed.length) 0 ≤ ntl.getD (rand k % nn) 0)))
        (math_ceil q * seed.length)
      set p := neg_loop rand nn ntl 5
        ((List.range (math_ceil q * seed.length)).map fun k =>
          (rand k % nn, stl.getD (k % seed.length) 0,
            decide (stl.getD (k % seed.length) 0 ≤ ntl.getD (rand k % nn) 0)))
        (math_ceil q * seed.length) with hp
    -- length of the selected cells equals the total matrix size
      have hlen2 : (if p.2 then p.1 else
          p.1.map fun cell =>
            if cell.2.2 then (argmin ntl, cell.2.1, cell.2.2) else cell).length =
          math_ceil q * seed.length := by
        by_cases h2 : p.2
        · rw [if_pos h2, hloop]
          simp
        · rw [if_neg h2]
          rw [List.length_map, hloop]
          simp
      rw [List.length_take, List.length_map, hlen2]
      have := math_ceil_mul_le seed.length q hq
      omega

end PyG

namespace PyG

theorem cells0_good (rand : ℕ → ℕ) (nn : ℕ) (st nt : List ℤ) (total n : ℕ) :
    ∀ x ∈ ((List.range total).map fun k =>
        ((rand k % nn, st.getD (k % n) 0,
          decide (st.getD (k % n) 0 ≤ nt.getD (rand k % nn) 0)) : NegCell)),
      x.2.2 = false → nt.getD x.1 0 < x.2.1 := by
  intro x hx
  rcases List.mem_map.mp hx with ⟨k, _, rfl⟩
  intro hfalse
  simp only [decide_eq_false_iff_not, not_le] at hfalse
  exact hfalse

end PyG

namespace PyG

/-- C1 (amended): every entry of a temporal `neg_sample` result is a node
whose node-time is `<=` the seed time of its slot, provided every seed time
is at least the node-time of the earliest-timestamp node (the fallback
value); without that proviso a fallback slot can violate the bound. -/
theorem neg_sample_temporal_valid (rand : ℕ → ℕ) (seed : List ℕ) (q : ℚ)
    (nn : ℕ) (st nt : List ℤ) (res : List ℕ)
    (hlen : st.length = seed.length)
    (hmin : ∀ t ∈ st, nt.getD (argmin nt) 0 ≤ t)
    (h : neg_sample rand seed q nn (some st) (some nt) = Except.ok res) :
    temporally_valid seed.length st nt res := by
  simp only [neg_sample, Except.ok.injEq] at h
  subst h
  intro k hk
  set n := seed.length with hn
  set total := math_ceil q * n with htotal
  set cells0 : List NegCell := (List.range total).map (fun k =>
    (rand k % nn, st.getD (k % n) 0,
      decide (st.getD (k % n) 0 ≤ nt.getD (rand k % nn) 0))) with hc0
  set p := neg_loop rand nn nt 5 cells0 total with hp
  set cells2 := if p.2 then p.1 else
    p.1.map (fun cell => if cell.2.2 then (argmin nt, cell.2.1, cell.2.2)
      else cell) with hc2
  have hlen1 : p.1.length = total := by
    rw [hp, neg_loop_length, hc0, List.length_map, List.length_range]
  have hlen2 : cells2.length = total := by
    rw [hc2]
    by_cases h2 : p.2
    · rw [if_pos h2, hlen1]
    · rw [if_neg h2, List.length_map, hlen1]
  have hk2 : k < total := by
    have := hk
    simp only [List.length_take, List.length_map, hlen2] at this
    omega
  have hnpos : 0 < n := by
    by_contra hzero
    push_neg at hzero
    interval_cases n
    simp [htotal] at hk2
  have hsts : cells2.map (fun x => x.2.1) = cells0.map (fun x => x.2.1) := by
    rw [hc2]
    by_cases h2 : p.2
    · rw [if_pos h2, hp, neg_loop_sts]
    · rw [if_neg h2, List.map_map]
      have heq : ((fun x : NegCell => x.2.1) ∘ fun cell : NegCell =>
          if cell.2.2 then (argmin nt, cell.2.1, cell.2.2) else cell) =
          fun x : NegCell => x.2.1 := by
        funext c
        by_cases hb : c.2.2 <;> simp [hb]
      rw [heq, hp, neg_loop_sts]
  have hkc : k < cells2.length := by rw [hlen2]; exact hk2
  have hkc0 : k < cells0.length := by
    rw [hc0, List.length_map, List.length_range]; exact hk2
  have hq1 : (cells2.map (fun x => x.2.1))[k]? =
      (cells0.map (fun x => x.2.1))[k]? := by rw [hsts]
  rw [List.getElem?_map, List.getElem?_map, List.getElem?_eq_getElem hkc,
    List.getElem?_eq_getElem hkc0] at hq1
  have hcomp : cells2[k].2.1 = cells0[k].2.1 := by simpa using hq1
  have hc0k : cells0[k] = ((rand k % nn, st.getD (k % n) 0,
      decide (st.getD (k % n) 0 ≤ nt.getD (rand k % nn) 0)) : NegCell) := by
    simp [hc0]
  have hcomp2 : cells2[k].2.1 = st.getD (k % n) 0 := by
    rw [hcomp, hc0k]
  have hval : ((cells2.map fun cell => cell.1).take
      (math_ceil ((n : ℚ) * q))).getD k 0 = cells2[k].1 := by
    rw [List.getD_eq_getElem?_getD,
      List.getElem?_take_of_lt (by
        simp only [List.length_take, List.length_map, hlen2] at hk
        omega),
      List.getElem?_map, List.getElem?_eq_getElem hkc]
    simp
  rw [hval, ← hcomp2]
  -- validity of cell k
  have hgood : ∀ y ∈ p.1, y.2.2 = false → nt.getD y.1 0 < y.2.1 := by
    rw [hp]
    exact neg_loop_good rand nn nt 5 cells0 total
      (cells0_good rand nn st nt total n)
  by_cases h2 : p.2
  · have hcc : cells2 = p.1 := by rw [hc2, if_pos h2]
    have hmem : cells2[k] ∈ p.1 := by
      rw [← hcc]; exact List.getElem_mem hkc
    have hflag : cells2[k].2.2 = false := by
      have := neg_loop_complete rand nn nt 5 cells0 total (hp ▸ h2)
      exact this _ (hp ▸ hmem)
    exact le_of_lt (hgood _ hmem hflag)
  · have hcc : cells2 = p.1.map (fun cell =>
        if cell.2.2 then (argmin nt, cell.2.1, cell.2.2) else cell) := by
      rw [hc2, if_neg h2]
    have hk1 : k < p.1.length := by rw [hlen1]; exact hk2
    have hck : cells2[k] = (fun cell : NegCell =>
        if cell.2.2 then (argmin nt, cell.2.1, cell.2.2) else cell) p.1[k] := by
      conv =>
        lhs
        rw [List.getElem_of_eq hcc]
      rw [List.getElem_map]
    have hmem1 : p.1[k] ∈ p.1 := List.getElem_mem hk1
    by_cases hb : p.1[k].2.2
    · have hck2 : cells2[k] = (argmin nt, p.1[k].2.1, p.1[k].2.2) := by
        rw [hck]; simp [hb]
      rw [hck2]
      show nt.getD (argmin nt) 0 ≤ p.1[k].2.1
      have hstmem : cells2[k].2.1 ∈ st := by
        rw [hcomp2]
        have hkn : k % n < st.length := by rw [hlen]; exact Nat.mod_lt _ hnpos
        rw [List.getD_eq_getElem _ _ hkn]
        exact List.getElem_mem hkn
      have : cells2[k].2.1 = p.1[k].2.1 := by rw [hck2]
      rw [← this]
      exact hmin _ hstmem
    · have hck2 : cells2[k] = p.1[k] := by
        rw [hck]; simp [hb]
      rw [hck2]
      exact le_of_lt (hgood _ hmem1 (by simpa using hb))

end PyG

namespace PyG

/-- Closed witness for `neg_sample_temporal_valid`. -/
theorem neg_sample_temporal_valid_witness :
    temporally_valid 1 [(5 : ℤ)] [(3 : ℤ), 7] [0] :=
  neg_sample_temporal_valid (fun _ => 0) [0] 1 2 [(5 : ℤ)] [(3 : ℤ), 7] [0]
    (by rfl) (by decide)
    (by simp [neg_sample, math_ceil, neg_loop, List.range_succ])

/-- C4: `neg_sample` returns a flat list of length exactly
`ceil(len(seed) * amount)`, and with no temporal constraint every entry lies
in `[0, num_nodes)`. -/
theorem neg_sample_spec (rand : ℕ → ℕ) (seed : List ℕ) (q : ℚ) (nn : ℕ)
    (st nt : Option (List ℤ)) (res : List ℕ) (hq : 0 ≤ q) (hnn : 1 ≤ nn)
    (h : neg_sample rand seed q nn st nt = Except.ok res) :
    res.length = math_ceil ((seed.length : ℚ) * q) ∧
    (nt = none → ∀ v ∈ res, v < nn) := by
  refine ⟨neg_sample_length rand seed q nn st nt res hq h, ?_⟩
  rintro rfl v hv
  simp only [neg_sample, Except.ok.injEq] at h
  subst h
  rcases List.mem_map.mp hv with ⟨i, _, rfl⟩
  exact Nat.mod_lt _ (by omega)

/-- Closed witness for `neg_sample_spec`. -/
theorem neg_sample_spec_witness :
    (0 : ℚ) ≤ 1 ∧ 1 ≤ 3 ∧
    ([0, 1].length = math_ceil (((2 : ℕ) : ℚ) * 1) ∧
      ((none : Option (List ℤ)) = none → ∀ v ∈ [0, 1], v < 3)) :=
  ⟨by norm_num, by norm_num,
    neg_sample_spec (fun k => k) [5, 6] 1 3 none none [0, 1] (by norm_num)
      (by norm_num)
      (by simp [neg_sample, math_ceil, List.range_succ])⟩

end PyG

namespace PyG

theorem range'_drop (s n k : ℕ) :
    (List.range' s n).drop k = List.range' (s + k) (n - k) := by
  induction k generalizing s n with
  | zero => simp
  | succ j ih =>
    cases n with
    | zero => simp
    | succ m =>
      rw [List.range'_succ]
      simp only [List.drop_succ_cons]
      rw [ih (s + 1) m]
      congr 1 <;> omega

theorem range'_take (s n k : ℕ) :
    (List.range' s n).take k = List.range' s (min k n) := by
  induction k generalizing s n with
  | zero => simp
  | succ j ih =>
    cases n with
    | zero => simp
    | succ m =>
      rw [List.range'_succ, List.take_succ_cons, ih (s + 1) m]
      rw [show min (j + 1) (m + 1) = min j m + 1 by omega]
      rw [List.range'_succ]

theorem viewByWidth_ok (w : ℕ) (l : List ℕ) (m : List (List ℕ))
    (h : viewByWidth w l = Except.ok m) :
    w ≠ 0 ∧ l.length % w = 0 ∧
    m = (List.range (l.length / w)).map fun i => (l.drop (i * w)).take w := by
  unfold viewByWidth at h
  by_cases hw : w = 0
  · rw [if_pos hw] at h; cases h
  · rw [if_neg hw] at h
    by_cases hmod : l.length % w = 0
    · rw [if_pos hmod] at h
      cases h
      exact ⟨hw, hmod, rfl⟩
    · rw [if_neg hmod] at h; cases h

theorem viewByRows_ok (r : ℕ) (l : List ℕ) (m : List (List ℕ))
    (h : viewByRows r l = Except.ok m) :
    r ≠ 0 ∧ l.length % r = 0 ∧
    m = (List.range r).map fun i =>
      (l.drop (i * (l.length / r))).take (l.length / r) := by
  unfold viewByRows at h
  by_cases hr : r = 0
  · rw [if_pos hr] at h; cases h
  · rw [if_neg hr] at h
    by_cases hmod : l.length % r = 0
    · rw [if_pos hmod] at h
      cases h
      exact ⟨hr, hmod, rfl⟩
    · rw [if_neg hmod] at h; cases h

theorem chunk_row_length (l : List ℕ) (r w i : ℕ) (hl : l.length = r * w)
    (hi : i < r) : ((l.drop (i * w)).take w).length = w := by
  rw [List.length_take, List.length_drop, hl]
  have h1 : (i + 1) * w ≤ r * w := Nat.mul_le_mul_right w hi
  have h2 : (i + 1) * w = i * w + w := by ring
  omega

theorem math_ceil_nat_mul (n a : ℕ) :
    math_ceil ((n : ℚ) * ((a : ℕ) : ℚ)) = n * a := by
  unfold math_ceil
  rw [← Nat.cast_mul, Int.ceil_natCast, Int.toNat_natCast]

end PyG

namespace PyG

theorem flatten_chunk (a : ℕ) :
    ∀ (L : List (List ℕ)) (i : ℕ), (∀ r ∈ L, r.length = a) → i < L.length →
      ((List.flatten L).drop (i * a)).take a = L.getD i [] := by
  intro L
  induction L with
  | nil => intro i _ hi; cases hi
  | cons row rest ih =>
    intro i hL hi
    cases i with
    | zero =>
      simp only [Nat.zero_mul, List.drop_zero, List.flatten_cons, List.getD]
      rw [List.take_left' (hL row (List.mem_cons_self _ _))]
      rfl
    | succ j =>
      have hrow : row.length = a := hL row (List.mem_cons_self _ _)
      rw [List.flatten_cons, show (j + 1) * a = row.length + j * a by rw [hrow]; ring,
        List.drop_append]
      exact ih j (fun r hr => hL r (List.mem_cons_of_mem _ hr))
        (by simpa using hi)

theorem disjoint_neg_chain (base p a : ℕ) (m m2 : List (List ℕ))
    (h1 : viewByWidth p (List.range' base (p * a)) = Except.ok m)
    (h2 : viewByRows p (List.flatten (tmat m)) = Except.ok m2) :
    m2 = (List.range p).map fun i =>
      (List.range a).map fun r => base + r * p + i := by
  obtain ⟨hp, _, hm⟩ := viewByWidth_ok _ _ _ h1
  have hp0 : 0 < p := Nat.pos_of_ne_zero hp
  have hlen : (List.range' base (p * a)).length = p * a := List.length_range' _ _ _
  have hdiv : p * a / p = a := Nat.mul_div_cancel_left a hp0
  have hrows : m = (List.range a).map fun i => List.range' (base + i * p) p := by
    rw [hm, hlen, hdiv]
    apply List.map_congr_left
    intro i hi
    have hi' : i < a := List.mem_range.mp hi
    rw [range'_drop, range'_take]
    congr 1
    have h3 : (i + 1) * p ≤ a * p := Nat.mul_le_mul_right p hi'
    have h4 : (i + 1) * p = i * p + p := by ring
    have h5 : a * p = p * a := by ring
    omega
  cases a with
  | zero =>
    have hm0 : m = [] := by rw [hrows]; rfl
    subst hm0
    obtain ⟨_, _, hm2⟩ := viewByRows_ok _ _ _ h2
    rw [hm2]
    apply List.map_congr_left
    intro i _
    simp [tmat]
  | succ a' =>
    -- the transposed matrix in closed form
    have hhead : m.headD [] = List.range' base p := by
      rw [hrows, List.range_succ_eq_map]
      simp
    have htm : tmat m = (List.range p).map fun j =>
        (List.range (a' + 1)).map fun i => base + i * p + j := by
      unfold tmat
      rw [hhead, List.length_range']
      apply List.map_congr_left
      intro j hj
      have hj' : j < p := List.mem_range.mp hj
      rw [hrows, List.map_map]
      apply List.map_congr_left
      intro i _
      simp only [Function.comp_apply]
      have hjlen : j < (List.range' (base + i * p) p).length := by
        rw [List.length_range']; exact hj'
      rw [List.getD_eq_getElem _ _ hjlen, List.getElem_range'_1]
    have hTrows : ∀ r ∈ tmat m, r.length = a' + 1 := by
      intro r hr
      rw [htm] at hr
      rcases List.mem_map.mp hr with ⟨j, _, rfl⟩
      simp
    have hTlen : (tmat m).length = p := by rw [htm]; simp
    have hflat : (List.flatten (tmat m)).length = p * (a' + 1) := by
      rw [List.length_flatten, htm, List.map_map]
      have : (List.length ∘ fun j => (List.range (a' + 1)).map
          fun i => base + i * p + j) = fun _ => a' + 1 := by
        funext j; simp
      rw [this]
      simp [List.map_const']
    obtain ⟨_, _, hm2⟩ := viewByRows_ok _ _ _ h2
    rw [hm2, hflat, hdiv]
    apply List.map_congr_left
    intro i hi
    have hi' : i < p := List.mem_range.mp hi
    rw [flatten_chunk (a' + 1) (tmat m) i hTrows (by rw [hTlen]; exact hi')]
    rw [htm]
    rw [List.getD_eq_getElem _ _ (by simpa using hi'), List.getElem_map,
      List.getElem_range]

end PyG

namespace PyG

theorem squeezeLast_inl (m : List (List ℕ)) (h : ∀ r ∈ m, r.length = 1) :
    squeezeLast m = Sum.inl (m.map fun r => r.getD 0 0) := by
  unfold squeezeLast
  rw [if_pos]
  rw [List.all_eq_true]
  intro r hr
  simpa using h r hr

theorem squeezeLast_inr (m : List (List ℕ)) (r : List ℕ) (hr : r ∈ m)
    (h : r.length ≠ 1) : squeezeLast m = Sum.inr m := by
  unfold squeezeLast
  rw [if_neg]
  intro hall
  rw [List.all_eq_true] at hall
  exact h (by simpa using hall r hr)

theorem neg_prelude_triplet_ok (randS randD : ℕ → ℕ) (nsrc ndst : ℕ)
    (snt dnt : Option (List ℤ)) (q : ℚ) (src0 dst0 : List ℕ)
    (el0 : Option (List ℚ)) (elt : Option (List ℤ)) (p : PreludeOut)
    (hq : 0 ≤ q)
    (h : neg_prelude randS randD nsrc ndst snt dnt
      (some ⟨NegMode.triplet, q⟩) src0 dst0 el0 elt = Except.ok p) :
    p.src = src0 ∧ p.edge_label = none ∧
    p.dst.length = dst0.length + math_ceil ((dst0.length : ℚ) * q) ∧
    p.num_neg = math_ceil ((src0.length : ℚ) * q) := by
  simp only [neg_prelude] at h
  cases hns : neg_sample randD dst0 q ndst elt dnt with
  | error e => rw [hns] at h; cases h
  | ok dst_neg =>
    rw [hns] at h
    dsimp only at h
    have hlen := neg_sample_length randD dst0 q ndst elt dnt dst_neg hq hns
    by_cases hel : el0.isSome
    · rw [if_pos hel] at h; cases h
    · rw [if_neg hel] at h
      match elt with
      | none =>
        dsimp only at h
        cases h
        refine ⟨rfl, rfl, ?_, rfl⟩
        rw [List.length_append, hlen]
      | some t =>
        dsimp only at h
        by_cases hden : q.den = 1 ∧ 0 ≤ q
        · rw [if_pos hden] at h
          cases h
          refine ⟨rfl, rfl, ?_, rfl⟩
          rw [List.length_append, hlen]
        · rw [if_neg hden] at h; cases h

end PyG

namespace PyG

theorem unique_inverse_snd_length (l : List ℕ) :
    (unique_inverse l).2.length = l.length := by
  simp [unique_inverse]

theorem mod_helper (np i r : ℕ) (hi : i < np) (c : ℕ) :
    (c * np + r * np + i) % np = i := by
  rw [show c * np + r * np + i = i + np * (c + r) by ring]
  rw [Nat.add_mul_mod_self_left]
  exact Nat.mod_eq_of_lt hi

theorem edge_sample_triplet_shape (randS randD : ℕ → ℕ)
    (fn : List ℕ → Option (List ℤ) → SamplerOut) (nsrc ndst : ℕ) (dj : Bool)
    (ntime : Option (List ℤ)) (input : EdgeInput) (a : ℕ) (out : SamplerOut)
    (hlen : input.dst.length = input.src.length)
    (h : edge_sample randS randD fn nsrc ndst dj ntime
      (some ⟨NegMode.triplet, ((a : ℕ) : ℚ)⟩) input = Except.ok out) :
    tripletShape input.src.length a dj out.metadata := by
  set np := input.src.length with hnp
  simp only [edge_sample] at h
  by_cases hg : (input.edge_label_time.isSome && !dj) = true
  · rw [if_pos hg] at h; cases h
  · rw [if_neg hg] at h
    cases hpre : neg_prelude randS randD nsrc ndst ntime ntime
        (some ⟨NegMode.triplet, ((a : ℕ) : ℚ)⟩) input.src input.dst
        input.edge_label input.edge_label_time with
    | error e => rw [hpre] at h; cases h
    | ok p =>
      rw [hpre] at h
      dsimp only [NegSamplingConfig.is_binary] at h
      obtain ⟨hsrc, _, hdlen, _⟩ := neg_prelude_triplet_ok randS randD nsrc ndst
        ntime ntime ((a : ℕ) : ℚ) input.src input.dst input.edge_label
        input.edge_label_time p (by positivity) hpre
      have hslen : (p.src ++ p.dst).length = 2 * np + np * a := by
        rw [List.length_append, hsrc, hdlen, hlen, math_ceil_nat_mul]
        omega
      have hft : (false = true) = False := by simp
      have htt : (true = true) = True := by simp
      cases dj with
      | true =>
        simp only [hft, htt, if_false, if_true] at h
        cases hb : (fn (p.src ++ p.dst)
            (match input.edge_label_time with
             | none => none
             | some _ => some (p.src_time.getD [] ++ p.dst_time.getD []))).batch with
        | none => rw [hb] at h; cases h
        | some b =>
          rw [hb] at h
          dsimp only at h
          rw [show (p.src ++ p.dst).length - 2 * np = np * a by omega] at h
          cases hvw : viewByWidth np (List.range' (2 * np) (np * a)) with
          | error e => rw [hvw] at h; cases h
          | ok m =>
            rw [hvw] at h
            dsimp only at h
            cases hvr : viewByRows np (List.flatten (tmat m)) with
            | error e => rw [hvr] at h; cases h
            | ok m2 =>
              rw [hvr] at h
              dsimp only at h
              cases h
              have hnp0 : np ≠ 0 := (viewByWidth_ok _ _ _ hvw).1
              have hm2 := disjoint_neg_chain (2 * np) np a m m2 hvw hvr
              show tripletShape np a true (some (MetaOut.tripletM input.index
                (List.range np) (List.range' np np) (squeezeLast m2) p.src_time))
              by_cases ha : a = 1
              · subst ha
                have hall : ∀ r ∈ m2, r.length = 1 := by
                  intro r hr
                  rw [hm2] at hr
                  rcases List.mem_map.mp hr with ⟨i, _, rfl⟩
                  simp
                rw [squeezeLast_inl m2 hall]
                refine ⟨by simp, by simp [List.length_range'], rfl, ?_, ?_⟩
                · simp [hm2]
                · intro _ i hi
                  rw [hm2, List.map_map]
                  rw [List.getD_eq_getElem _ _ (by simpa using hi),
                    List.getElem_map, List.getElem_range]
                  simp only [Function.comp_apply]
                  show ((List.range 1).map fun r => 2 * np + r * np + i).getD 0 0 % np = i
                  have hone : (List.range 1).map (fun r => 2 * np + r * np + i) =
                      [2 * np + i] := by simp [List.range_succ]
                  rw [hone]
                  show (2 * np + i) % np = i
                  rw [show 2 * np + i = i + np * 2 by ring, Nat.add_mul_mod_self_left]
                  exact Nat.mod_eq_of_lt hi
              · have hrow0 : (List.range a).map
                    (fun r => 2 * np + r * np + 0) ∈ m2 := by
                  rw [hm2]
                  exact List.mem_map.mpr ⟨0, List.mem_range.mpr
                    (Nat.pos_of_ne_zero hnp0), rfl⟩
                rw [squeezeLast_inr m2 _ hrow0 (by simpa using ha)]
                refine ⟨by simp, by simp [List.length_range'], ha, ?_, ?_, ?_⟩
                · simp [hm2]
                · intro r hr
                  rw [hm2] at hr
                  rcases List.mem_map.mp hr with ⟨i, _, rfl⟩
                  simp
                · intro _ i hi e he
                  rw [hm2, List.getD_eq_getElem _ _ (by simpa using hi),
                    List.getElem_map, List.getElem_range] at he
                  rcases List.mem_map.mp he with ⟨r, _, rfl⟩
                  exact mod_helper np i r hi 2
      | false =>
        simp only [hft, if_false] at h
        cases hvr : viewByRows np
            ((unique_inverse (p.src ++ p.dst)).2.drop (2 * np)) with
        | error e => rw [hvr] at h; cases h
        | ok m2 =>
          rw [hvr] at h
          dsimp only at h
          cases h
          obtain ⟨hnp0, _, hm2⟩ := viewByRows_ok _ _ _ hvr
          have hflen : ((unique_inverse (p.src ++ p.dst)).2.drop
              (2 * np)).length = np * a := by
            rw [List.length_drop, unique_inverse_snd_length, hslen]
            omega
          rw [hflen, Nat.mul_div_cancel_left a (Nat.pos_of_ne_zero hnp0)] at hm2
          have hinvlen : (unique_inverse (p.src ++ p.dst)).2.length =
              2 * np + np * a := by
            rw [unique_inverse_snd_length, hslen]
          show tripletShape np a false (some (MetaOut.tripletM input.index
            ((unique_inverse (p.src ++ p.dst)).2.take np)
            (((unique_inverse (p.src ++ p.dst)).2.drop np).take np)
            (squeezeLast m2) p.src_time))
          have hrows : ∀ r ∈ m2, r.length = a := by
            intro r hr
            rw [hm2] at hr
            rcases List.mem_map.mp hr with ⟨i, hi, rfl⟩
            exact chunk_row_length _ np a i hflen (List.mem_range.mp hi)
          have hsi : ((unique_inverse (p.src ++ p.dst)).2.take np).length = np := by
            rw [List.length_take, hinvlen]
            omega
          have hdpi : (((unique_inverse (p.src ++ p.dst)).2.drop np).take
              np).length = np := by
            rw [List.length_take, List.length_drop, hinvlen]
            omega
          by_cases ha : a = 1
          · subst ha
            rw [squeezeLast_inl m2 (fun r hr => hrows r hr)]
            refine ⟨hsi, hdpi, rfl, ?_, ?_⟩
            · rw [List.length_map, hm2]
              simp
            · intro hfalse
              cases hfalse
          · have hm2len : m2.length = np := by rw [hm2]; simp
            have hnp1 : 0 < np := Nat.pos_of_ne_zero hnp0
            have hrow0 : m2.getD 0 [] ∈ m2 := by
              have : 0 < m2.length := by rw [hm2len]; exact hnp1
              rw [List.getD_eq_getElem _ _ this]
              exact List.getElem_mem this
            rw [squeezeLast_inr m2 _ hrow0 (by rw [hrows _ hrow0]; exact ha)]
            refine ⟨hsi, hdpi, ha, hm2len, hrows, ?_⟩
            intro hfalse
            cases hfalse

end PyG

namespace PyG

theorem edge_sample_hetero_triplet_shape (randS randD : ℕ → ℕ)
    (fn : List (String × List ℕ) → Option (List (String × List ℤ)) → HSamplerOut)
    (nsrc ndst : ℕ) (dj : Bool) (itype : String × String × String)
    (ntime : Option (List (String × List ℤ))) (input : EdgeInput) (a : ℕ)
    (out : HSamplerOut)
    (hlen : input.dst.length = input.src.length)
    (h : edge_sample_hetero randS randD fn nsrc ndst dj itype ntime
      (some ⟨NegMode.triplet, ((a : ℕ) : ℚ)⟩) input = Except.ok out) :
    tripletShape input.src.length a dj out.metadata := by
  set np := input.src.length with hnp
  simp only [edge_sample_hetero] at h
  by_cases hg : (input.edge_label_time.isSome && !dj) = true
  · rw [if_pos hg] at h; cases h
  · rw [if_neg hg] at h
    cases hpre : neg_prelude randS randD nsrc ndst
        (ntime.bind fun d => dictGet d itype.1)
        (ntime.bind fun d => dictGet d itype.2.2)
        (some ⟨NegMode.triplet, ((a : ℕ) : ℚ)⟩) input.src input.dst
        input.edge_label input.edge_label_time with
    | error e => rw [hpre] at h; cases h
    | ok p =>
      rw [hpre] at h
      dsimp only [NegSamplingConfig.is_binary] at h
      obtain ⟨hsrc, _, hdlen, _⟩ := neg_prelude_triplet_ok randS randD nsrc ndst
        _ _ ((a : ℕ) : ℚ) input.src input.dst input.edge_label
        input.edge_label_time p (by positivity) hpre
      have hdstlen : p.dst.length = np + np * a := by
        rw [hdlen, hlen, math_ceil_nat_mul]
      have hslen : (p.src ++ p.dst).length = 2 * np + np * a := by
        rw [List.length_append, hsrc, hdstlen]
        omega
      have hft : (false = true) = False := by simp
      have htt : (true = true) = True := by simp
      by_cases hty : itype.1 ≠ itype.2.2
      · rw [if_pos hty] at h
        cases dj with
        | true =>
          simp only [hft, htt, if_false, if_true] at h
          cases hb : (fn [(itype.1, p.src), (itype.2.2, p.dst)]
              (match input.edge_label_time with
               | none => none
               | some _ => some [(itype.1, p.src_time.getD []),
                   (itype.2.2, p.dst_time.getD [])])).batch with
          | none => rw [hb] at h; cases h
          | some bd =>
            rw [hb] at h
            dsimp only at h
            rw [show p.dst.length - np = np * a by omega] at h
            cases hvw : viewByWidth np (List.range' np (np * a)) with
            | error e => rw [hvw] at h; cases h
            | ok m =>
              rw [hvw] at h
              dsimp only at h
              cases hvr : viewByRows np (List.flatten (tmat m)) with
              | error e => rw [hvr] at h; cases h
              | ok m2 =>
                rw [hvr] at h
                dsimp only at h
                cases h
                have hnp0 : np ≠ 0 := (viewByWidth_ok _ _ _ hvw).1
                have hm2 := disjoint_neg_chain np np a m m2 hvw hvr
                show tripletShape np a true (some (MetaOut.tripletM input.index
                  (List.range np) (List.range np) (squeezeLast m2) p.src_time))
                by_cases ha : a = 1
                · subst ha
                  have hall : ∀ r ∈ m2, r.length = 1 := by
                    intro r hr
                    rw [hm2] at hr
                    rcases List.mem_map.mp hr with ⟨i, _, rfl⟩
                    simp
                  rw [squeezeLast_inl m2 hall]
                  refine ⟨by simp, by simp, rfl, ?_, ?_⟩
                  · simp [hm2]
                  · intro _ i hi
                    rw [hm2, List.map_map]
                    rw [List.getD_eq_getElem _ _ (by simpa using hi),
                      List.getElem_map, List.getElem_range]
                    simp only [Function.comp_apply]
                    show ((List.range 1).map fun r => np + r * np + i).getD 0 0 % np = i
                    have hone : (List.range 1).map (fun r => np + r * np + i) =
                        [np + i] := by simp [List.range_succ]
                    rw [hone]
                    show (np + i) % np = i
                    rw [show np + i = i + np * 1 by ring, Nat.add_mul_mod_self_left]
                    exact Nat.mod_eq_of_lt hi
                · have hrow0 : (List.range a).map
                      (fun r => np + r * np + 0) ∈ m2 := by
                    rw [hm2]
                    exact List.mem_map.mpr ⟨0, List.mem_range.mpr
                      (Nat.pos_of_ne_zero hnp0), rfl⟩
                  rw [squeezeLast_inr m2 _ hrow0 (by simpa using ha)]
                  refine ⟨by simp, by simp, ha, ?_, ?_, ?_⟩
                  · simp [hm2]
                  · intro r hr
                    rw [hm2] at hr
                    rcases List.mem_map.mp hr with ⟨i, _, rfl⟩
                    simp
                  · intro _ i hi e he
                    rw [hm2, List.getD_eq_getElem _ _ (by simpa using hi),
                      List.getElem_map, List.getElem_range] at he
                    rcases List.mem_map.mp he with ⟨r, _, rfl⟩
                    have := mod_helper np i r hi 1
                    rw [one_mul] at this
                    exact this
        | false =>
          simp only [hft, if_false] at h
          cases hvr : viewByRows np ((unique_inverse p.dst).2.drop np) with
          | error e => rw [hvr] at h; cases h
          | ok m2 =>
            rw [hvr] at h
            dsimp only at h
            cases h
            obtain ⟨hnp0, _, hm2⟩ := viewByRows_ok _ _ _ hvr
            have hflen : ((unique_inverse p.dst).2.drop np).length = np * a := by
              rw [List.length_drop, unique_inverse_snd_length, hdstlen]
              omega
            rw [hflen, Nat.mul_div_cancel_left a (Nat.pos_of_ne_zero hnp0)] at hm2
            show tripletShape np a false (some (MetaOut.tripletM input.index
              (unique_inverse p.src).2 ((unique_inverse p.dst).2.take np)
              (squeezeLast m2) p.src_time))
            have hrows : ∀ r ∈ m2, r.length = a := by
              intro r hr
              rw [hm2] at hr
              rcases List.mem_map.mp hr with ⟨i, hi, rfl⟩
              exact chunk_row_length _ np a i hflen (List.mem_range.mp hi)
            have hsi : (unique_inverse p.src).2.length = np := by
              rw [unique_inverse_snd_length, hsrc]
            have hdpi : ((unique_inverse p.dst).2.take np).length = np := by
              rw [List.length_take, unique_inverse_snd_length, hdstlen]
              omega
            by_cases ha : a = 1
            · subst ha
              rw [squeezeLast_inl m2 (fun r hr => hrows r hr)]
              refine ⟨hsi, hdpi, rfl, ?_, ?_⟩
              · rw [List.length_map, hm2]; simp
              · intro hfalse; cases hfalse
            · have hm2len : m2.length = np := by rw [hm2]; simp
              have hnp1 : 0 < np := Nat.pos_of_ne_zero hnp0
              have hrow0 : m2.getD 0 [] ∈ m2 := by
                have h0 : 0 < m2.length := by rw [hm2len]; exact hnp1
                rw [List.getD_eq_getElem _ _ h0]
                exact List.getElem_mem h0
              rw [squeezeLast_inr m2 _ hrow0 (by rw [hrows _ hrow0]; exact ha)]
              refine ⟨hsi, hdpi, ha, hm2len, hrows, ?_⟩
              intro hfalse; cases hfalse
      · rw [if_neg hty] at h
        cases dj with
        | true =>
          simp only [hft, htt, if_false, if_true] at h
          cases hb : (fn [(itype.1, p.src ++ p.dst)]
              (match input.edge_label_time with
               | none => none
               | some _ => some [(itype.1,
                   p.src_time.getD [] ++ p.dst_time.getD [])])).batch with
          | none => rw [hb] at h; cases h
          | some bd =>
            rw [hb] at h
            dsimp only at h
            rw [show (p.src ++ p.dst).length - 2 * np = np * a by omega] at h
            cases hvw : viewByWidth np (List.range' (2 * np) (np * a)) with
            | error e => rw [hvw] at h; cases h
            | ok m =>
              rw [hvw] at h
              dsimp only at h
              cases hvr : viewByRows np (List.flatten (tmat m)) with
              | error e => rw [hvr] at h; cases h
              | ok m2 =>
                rw [hvr] at h
                dsimp only at h
                cases h
                have hnp0 : np ≠ 0 := (viewByWidth_ok _ _ _ hvw).1
                have hm2 := disjoint_neg_chain (2 * np) np a m m2 hvw hvr
                show tripletShape np a true (some (MetaOut.tripletM input.index
                  (List.range np) (List.range' np np) (squeezeLast m2) p.src_time))
                by_cases ha : a = 1
                · subst ha
                  have hall : ∀ r ∈ m2, r.length = 1 := by
                    intro r hr
                    rw [hm2] at hr
                    rcases List.mem_map.mp hr with ⟨i, _, rfl⟩
                    simp
                  rw [squeezeLast_inl m2 hall]
                  refine ⟨by simp, by simp [List.length_range'], rfl, ?_, ?_⟩
                  · simp [hm2]
                  · intro _ i hi
                    rw [hm2, List.map_map]
                    rw [List.getD_eq_getElem _ _ (by simpa using hi),
                      List.getElem_map, List.getElem_range]
                    simp only [Function.comp_apply]
                    show ((List.range 1).map fun r => 2 * np + r * np + i).getD 0 0
                      % np = i
                    have hone : (List.range 1).map (fun r => 2 * np + r * np + i) =
                        [2 * np + i] := by simp [List.range_succ]
                    rw [hone]
                    show (2 * np + i) % np = i
                    rw [show 2 * np + i = i + np * 2 by ring,
                      Nat.add_mul_mod_self_left]
                    exact Nat.mod_eq_of_lt hi
                · have hrow0 : (List.range a).map
                      (fun r => 2 * np + r * np + 0) ∈ m2 := by
                    rw [hm2]
                    exact List.mem_map.mpr ⟨0, List.mem_range.mpr
                      (Nat.pos_of_ne_zero hnp0), rfl⟩
                  rw [squeezeLast_inr m2 _ hrow0 (by simpa using ha)]
                  refine ⟨by simp, by simp [List.length_range'], ha, ?_, ?_, ?_⟩
                  · simp [hm2]
                  · intro r hr
                    rw [hm2] at hr
                    rcases List.mem_map.mp hr with ⟨i, _, rfl⟩
                    simp
                  · intro _ i hi e he
                    rw [hm2, List.getD_eq_getElem _ _ (by simpa using hi),
                      List.getElem_map, List.getElem_range] at he
                    rcases List.mem_map.mp he with ⟨r, _, rfl⟩
                    exact mod_helper np i r hi 2
        | false =>
          simp only [hft, if_false] at h
          cases hvr : viewByRows np
              ((unique_inverse (p.src ++ p.dst)).2.drop (2 * np)) with
          | error e => rw [hvr] at h; cases h
          | ok m2 =>
            rw [hvr] at h
            dsimp only at h
            cases h
            obtain ⟨hnp0, _, hm2⟩ := viewByRows_ok _ _ _ hvr
            have hflen : ((unique_inverse (p.src ++ p.dst)).2.drop
                (2 * np)).length = np * a := by
              rw [List.length_drop, unique_inverse_snd_length, hslen]
              omega
            rw [hflen, Nat.mul_div_cancel_left a (Nat.pos_of_ne_zero hnp0)] at hm2
            have hinvlen : (unique_inverse (p.src ++ p.dst)).2.length =
                2 * np + np * a := by
              rw [unique_inverse_snd_length, hslen]
            show tripletShape np a false (some (MetaOut.tripletM input.index
              ((unique_inverse (p.src ++ p.dst)).2.take np)
              (((unique_inverse (p.src ++ p.dst)).2.drop np).take np)
              (squeezeLast m2) p.src_time))
            have hrows : ∀ r ∈ m2, r.length = a := by
              intro r hr
              rw [hm2] at hr
              rcases List.mem_map.mp hr with ⟨i, hi, rfl⟩
              exact chunk_row_length _ np a i hflen (List.mem_range.mp hi)
            have hsi : ((unique_inverse (p.src ++ p.dst)).2.take np).length =
                np := by
              rw [List.length_take, hinvlen]
              omega
            have hdpi : (((unique_inverse (p.src ++ p.dst)).2.drop np).take
                np).length = np := by
              rw [List.length_take, List.length_drop, hinvlen]
              omega
            by_cases ha : a = 1
            · subst ha
              rw [squeezeLast_inl m2 (fun r hr => hrows r hr)]
              refine ⟨hsi, hdpi, rfl, ?_, ?_⟩
              · rw [List.length_map, hm2]; simp
              · intro hfalse; cases hfalse
            · have hm2len : m2.length = np := by rw [hm2]; simp
              have hnp1 : 0 < np := Nat.pos_of_ne_zero hnp0
              have hrow0 : m2.getD 0 [] ∈ m2 := by
                have h0 : 0 < m2.length := by rw [hm2len]; exact hnp1
                rw [List.getD_eq_getElem _ _ h0]
                exact List.getElem_mem h0
              rw [squeezeLast_inr m2 _ hrow0 (by rw [hrows _ hrow0]; exact ha)]
              refine ⟨hsi, hdpi, ha, hm2len, hrows, ?_⟩
              intro hfalse; cases hfalse

end PyG

namespace PyG

/-- C3: every successful `edge_sample` call in triplet mode (homogeneous or
heterogeneous) returns metadata with `src_index` and `dst_pos_index` of
length `num_pos` and `dst_neg_index` of shape `num_pos × amount`, squeezed
to a flat vector of length `num_pos` when `amount = 1`; in disjoint mode the
entries of row `i` are the seed positions of the negatives belonging to
positive example `i` (their batch id `position % num_pos` equals `i`). -/
theorem triplet_metadata_spec :
    (∀ (randS randD : ℕ → ℕ) (fn : List ℕ → Option (List ℤ) → SamplerOut)
        (nsrc ndst : ℕ) (dj : Bool) (ntime : Option (List ℤ))
        (input : EdgeInput) (a : ℕ) (out : SamplerOut),
      input.dst.length = input.src.length →
      edge_sample randS randD fn nsrc ndst dj ntime
        (some ⟨NegMode.triplet, ((a : ℕ) : ℚ)⟩) input = Except.ok out →
      tripletShape input.src.length a dj out.metadata) ∧
    (∀ (randS randD : ℕ → ℕ)
        (fnH : List (String × List ℕ) → Option (List (String × List ℤ)) →
          HSamplerOut)
        (nsrc ndst : ℕ) (dj : Bool) (itype : String × String × String)
        (ntimeH : Option (List (String × List ℤ))) (input : EdgeInput)
        (a : ℕ) (out : HSamplerOut),
      input.dst.length = input.src.length →
      edge_sample_hetero randS randD fnH nsrc ndst dj itype ntimeH
        (some ⟨NegMode.triplet, ((a : ℕ) : ℚ)⟩) input = Except.ok out →
      tripletShape input.src.length a dj out.metadata) :=
  ⟨fun randS randD fn nsrc ndst dj ntime input a out hl h =>
    edge_sample_triplet_shape randS randD fn nsrc ndst dj ntime input a out hl h,
   fun randS randD fnH nsrc ndst dj itype ntimeH input a out hl h =>
    edge_sample_hetero_triplet_shape randS randD fnH nsrc ndst dj itype ntimeH
      input a out hl h⟩

/-- Closed witness for `triplet_metadata_spec`. -/
theorem triplet_metadata_spec_witness :
    tripletShape 3 2 true (some (MetaOut.tripletM [0, 1, 2] [0, 1, 2] [3, 4, 5]
      (Sum.inr [[6, 9], [7, 10], [8, 11]]) none)) :=
  triplet_metadata_spec.1 (fun k => k) (fun k => k) const_batch_fn 10 10 true
    none ⟨[0, 1, 2], [0, 1, 2], [4, 5, 6], none, none⟩ 2
    ⟨[0, 1, 2, 4, 5, 6, 0, 1, 2, 3, 4, 5], [], [], [],
      some [0, 0, 0, 0, 0, 0, 0, 0, 0, 0, 0, 0],
      some (MetaOut.tripletM [0, 1, 2] [0, 1, 2] [3, 4, 5]
        (Sum.inr [[6, 9], [7, 10], [8, 11]]) none)⟩
    (by rfl)
    (by simp only [edge_sample, neg_prelude, neg_sample,
          NegSamplingConfig.is_binary]
        norm_num [math_ceil, viewByRows, viewByWidth, tmat, squeezeLast,
          List.range_succ, const_batch_fn, SamplerOut.withBatchMod,
          SamplerOut.withMeta, Int.toNat_ofNat]
        decide)

end PyG
